import Mathlib

/-!
# The key-indexed data cache of the indexer tool

A shallow embedding of `indexer/indexer_tool/data_cache_file.hpp`:

* `cache.detail.file_map_t`: the offset table (an in-memory vector of
  `(id, value)` pairs plus a backing file of fixed-size binary records);
* `cache.DataFileWriter` / `cache.DataFileReader`: the record stream with its
  offset table;
* `cache.MappedWay`: the packed 64-bit way id with a two-bit tag.

Conventions.  `uint64_t` and `size_t` values are natural numbers; where the
source shifts or masks a 64-bit word the model reduces modulo `2 ^ 64`.  The
backing file of a `file_map_t` is the list of the fixed-size records it holds
(a record is one `element_t` copied byte for byte), so its size in bytes is
`sizeof(element_t)` times the length of that list.  The standard algorithms
`std::sort`, `std::lower_bound` and `std::equal_range` are modelled by an
insertion sort and by the usual halving loops.
-/

namespace cache

namespace detail

/-- The pair `pair<uint64_t, TValue>` stored in the table. -/
abbrev element_t (V : Type) := Nat × V

/-- The class `file_map_t<TFile, TValue>`: the vector `m_memory` and the
contents of the file behind `m_file`, as the sequence of its records. -/
structure file_map_t (V : Type) where
  m_memory : List (element_t V)
  m_file : List (element_t V)
deriving DecidableEq, Repr

/-- The constant `static const size_t s_max_count = 1024`. -/
def s_max_count : Nat := 1024

/-- The size `sizeof(element_t)` in bytes: both value types the repository
uses (`uint64_t` and `MappedWay`) are 8 bytes wide, next to the 8-byte id. -/
def sizeof_element_t : Nat := 16

/-- The bound `numeric_limits<size_t>::max()` for a 64-bit `size_t`. -/
def size_t_max : Nat := 2 ^ 64 - 1

/-- The comparison `element_less_t::operator()(element_t, element_t)`. -/
def element_less {V : Type} [LinearOrder V] (r1 r2 : element_t V) : Bool :=
  if r1.1 = r2.1 then decide (r1.2 < r2.2) else decide (r1.1 < r2.1)

/-- The comparison `element_less_t::operator()(element_t, uint64_t)`. -/
def element_less_key {V : Type} (r1 : element_t V) (r2 : Nat) : Bool :=
  decide (r1.1 < r2)

/-- The comparison `element_less_t::operator()(uint64_t, element_t)`. -/
def key_less_element {V : Type} (r1 : Nat) (r2 : element_t V) : Bool :=
  decide (r1 < r2.1)

/-- Modelled from the spec: the macro `ASSERT` of `base/assert.hpp`, which is
not among the sources.  The condition holds, or the check fails fatally and
the operation produces nothing. -/
def ASSERT (condition : Bool) : Option Unit :=
  if condition then some () else none

/-- The conversion `uint64_to_size`: the assertion `v < max(size_t)`, then the
value unchanged. -/
def uint64_to_size (v : Nat) : Option Nat :=
  (ASSERT (decide (v < size_t_max))).bind (fun _ => some v)

/-- The call `std::sort(first, last, comp)`: the result has no pair of
positions `i < j` with `comp (l[j], l[i])`. -/
def sort {V : Type} [LinearOrder V] (l : List (element_t V)) : List (element_t V) :=
  l.insertionSort (fun a b => element_less b a = false)

/-- The order of a sorted table: no entry is less than an entry before it. -/
def TableSorted {V : Type} [LinearOrder V] (l : List (element_t V)) : Prop :=
  l.Pairwise (fun a b => element_less b a = false)

/-- The halving loop shared by `std::lower_bound` and `std::upper_bound`:
`first` is the start of the window, `len` its length, and `goRight` tells
whether the window continues to the right of its middle element.  The first
argument bounds the number of iterations; `len` iterations always suffice. -/
def bound_loop {V : Type} (l : List (element_t V)) (goRight : element_t V → Bool) :
    Nat → Nat → Nat → Nat
  | 0, first, _ => first
  | fuel + 1, first, len =>
    if 0 < len then
      let half := len / 2
      let middle := first + half
      match l[middle]? with
      | some e =>
        if goRight e then bound_loop l goRight fuel (middle + 1) (len - half - 1)
        else bound_loop l goRight fuel first half
      | none => first
    else first

/-- The call `std::lower_bound(begin, end, k, element_less_t())`, as an index. -/
def lower_bound {V : Type} (l : List (element_t V)) (k : Nat) : Nat :=
  bound_loop l (fun e => element_less_key e k) l.length 0 l.length

/-- The call `std::upper_bound(begin, end, k, element_less_t())`, as an index. -/
def upper_bound {V : Type} (l : List (element_t V)) (k : Nat) : Nat :=
  bound_loop l (fun e => !key_less_element k e) l.length 0 l.length

/-- The call `std::equal_range(begin, end, k, element_less_t())`: the pair of
`lower_bound` and `upper_bound`. -/
def equal_range {V : Type} (l : List (element_t V)) (k : Nat) : Nat × Nat :=
  (lower_bound l k, upper_bound l k)

namespace file_map_t

variable {V : Type}

/-- The constructor `file_map_t(name)`: an empty vector over the file `name`,
whose present contents are `contents` (empty for a file opened for writing). -/
def init (contents : List (element_t V)) : file_map_t V :=
  { m_memory := [], m_file := contents }

/-- The method `flush_to_file`. -/
def flush_to_file (m : file_map_t V) : file_map_t V :=
  if !m.m_memory.isEmpty then
    { m_memory := [], m_file := m.m_file ++ m.m_memory }
  else m

/-- The method `read_to_memory`; `none` when an assertion of
`uint64_to_size` fails.  The allocation of `resize` succeeds: the `catch`
branch for `bad_alloc` is outside the model. -/
def read_to_memory [LinearOrder V] (m : file_map_t V) : Option (file_map_t V) :=
  let m1 : file_map_t V := { m with m_memory := [] }
  let fileSize := sizeof_element_t * m1.m_file.length
  if fileSize = 0 then some m1
  else
    match uint64_to_size (fileSize / sizeof_element_t) with
    | none => none
    | some n =>
      match uint64_to_size fileSize with
      | none => none
      | some sz =>
        some { m1 with m_memory := sort ((m1.m_file.take (sz / sizeof_element_t)).take n) }

/-- The method `write`. -/
def write (m : file_map_t V) (k : Nat) (v : V) : file_map_t V :=
  let m1 := if m.m_memory.length > s_max_count then m.flush_to_file else m
  { m1 with m_memory := m1.m_memory ++ [(k, v)] }

/-- The method `read_one`: the flag returned and the value of the out
parameter `v` after the call. -/
def read_one (m : file_map_t V) (k : Nat) (v : V) : Bool × V :=
  let i := lower_bound m.m_memory k
  match m.m_memory[i]? with
  | some e => if e.1 = k then (true, e.2) else (false, v)
  | none => (false, v)

/-- The method `GetRange`: the two iterators as indices into `m_memory`. -/
def GetRange (m : file_map_t V) (k : Nat) : Nat × Nat :=
  equal_range m.m_memory k

/-- The elements between the two iterators of a range. -/
def rangeElements (m : file_map_t V) (r : Nat × Nat) : List (element_t V) :=
  (m.m_memory.drop r.1).take (r.2 - r.1)

/-- The loop of `for_each_ret` over the elements of the range: the visitor
`toDo` carries its own state and returns `true` to stop. -/
def for_each_loop {S : Type} (toDo : S → V → S × Bool) : List (element_t V) → S → S
  | [], s => s
  | e :: rest, s =>
    let r := toDo s e.2
    if r.2 then r.1 else for_each_loop toDo rest r.1

/-- The method `for_each_ret`: the state of the visitor after the call. -/
def for_each_ret {S : Type} (m : file_map_t V) (k : Nat) (toDo : S → V → S × Bool) (s : S) : S :=
  for_each_loop toDo (m.rangeElements (m.GetRange k)) s

/-- The visitor `toDo` with a record of its calls: the state is paired with
the list of the values the visitor has been called on so far. -/
def recordCalls {S : Type} (toDo : S → V → S × Bool) (sl : S × List V) (v : V) :
    (S × List V) × Bool :=
  (((toDo sl.1 v).1, sl.2 ++ [v]), (toDo sl.1 v).2)

/-- A sequence of `write` calls, first to last. -/
def writes (m : file_map_t V) (ws : List (element_t V)) : file_map_t V :=
  ws.foldl (fun acc w => acc.write w.1 w.2) m

end file_map_t

end detail

/-- One byte of a data file. -/
abbrev Byte := Nat

/-- The serialisation operators of a record type `T`, supplied by the record
type: `put t` is the byte sequence `stream << t` appends, and `get bs` is the
record `stream >> t` decodes from the bytes `bs` that start at the read
cursor, with the number of bytes it consumes. -/
structure Codec (T : Type) where
  put : T → List Byte
  get : List Byte → T × Nat

/-- The class `DataFileWriter`: the bytes written to `m_stream` so far (the
stream position `Pos()` is their number) and the offset table `m_offsets`. -/
structure DataFileWriter where
  m_stream : List Byte
  m_offsets : detail.file_map_t Nat
deriving DecidableEq, Repr

/-- The class `DataFileReader`: the bytes of the data file behind `m_stream`,
the read cursor of the stream, and the offset table `m_offsets`. -/
structure DataFileReader where
  m_stream : List Byte
  m_pos : Nat
  m_offsets : detail.file_map_t Nat
deriving DecidableEq, Repr

/-- A record type to instantiate the stream with: a byte string, written as
its length followed by its bytes. -/
def stringCodec : Codec (List Byte) where
  put t := t.length :: t
  get bs := ((bs.drop 1).take (bs.headD 0), bs.headD 0 + 1)

namespace DataFileWriter

/-- The constructor `DataFileWriter(name)`: both files are created empty. -/
def init : DataFileWriter :=
  { m_stream := [], m_offsets := detail.file_map_t.init [] }

/-- The method `Pos` of the writer stream. -/
def Pos (w : DataFileWriter) : Nat := w.m_stream.length

/-- The method `Write`. -/
def Write {T : Type} (c : Codec T) (w : DataFileWriter) (id : Nat) (t : T) : DataFileWriter :=
  let offsets := w.m_offsets.write id w.Pos
  { m_stream := w.m_stream ++ c.put t, m_offsets := offsets }

/-- The method `SaveOffsets`. -/
def SaveOffsets (w : DataFileWriter) : DataFileWriter :=
  { w with m_offsets := w.m_offsets.flush_to_file }

/-- A sequence of `Write` calls, first to last. -/
def Writes {T : Type} (c : Codec T) (w : DataFileWriter) (ws : List (Nat × T)) : DataFileWriter :=
  ws.foldl (fun acc x => acc.Write c x.1 x.2) w

/-- The offset entries of consecutive records: the record of `ws` at
position `i` starts where the records before it end, the first at `p`. -/
def recordOffsets {T : Type} (c : Codec T) : Nat → List (Nat × T) → List (detail.element_t Nat)
  | _, [] => []
  | p, x :: ws => (x.1, p) :: recordOffsets c (p + (c.put x.2).length) ws

end DataFileWriter

namespace DataFileReader

/-- The constructor `DataFileReader(name)` over a data file holding `data`
and an offset file holding `offsets`. -/
def init (data : List Byte) (offsets : List (detail.element_t Nat)) : DataFileReader :=
  { m_stream := data, m_pos := 0, m_offsets := detail.file_map_t.init offsets }

/-- The method `LoadOffsets`; `none` when `read_to_memory` fails. -/
def LoadOffsets (r : DataFileReader) : Option DataFileReader :=
  match r.m_offsets.read_to_memory with
  | some offsets => some { r with m_offsets := offsets }
  | none => none

/-- The method `Read`: the flag returned, the record `t` after the call, and
the reader after the call. -/
def Read {T : Type} (c : Codec T) (r : DataFileReader) (id : Nat) (t : T) :
    Bool × T × DataFileReader :=
  let found := r.m_offsets.read_one id 0
  if found.1 then
    let pos := found.2
    let got := c.get (r.m_stream.drop pos)
    (true, got.1, { r with m_pos := pos + got.2 })
  else (false, t, r)

end DataFileReader

/-- Modelled from the spec: the macro `CHECK_EQUAL` of `base/assert.hpp`, which
is not among the sources.  The two values are equal, or the check fails as a
contract violation and the operation produces nothing. -/
def CHECK_EQUAL (a b : Nat) : Option Unit :=
  if a = b then some () else none

/-- The enumeration `MappedWay::WayType`. -/
inductive WayType where
  | coast_direct
  | empty_direct
  | coast_opposite
  | empty_opposite
deriving DecidableEq, Repr

/-- The numeric value of a `WayType`. -/
def WayType.code : WayType → Nat
  | .coast_direct => 0
  | .empty_direct => 1
  | .coast_opposite => 2
  | .empty_opposite => 3

/-- The conversion `static_cast<WayType>` of a value in `0..3`. -/
def WayType.static_cast : Nat → WayType
  | 0 => .coast_direct
  | 1 => .empty_direct
  | 2 => .coast_opposite
  | _ => .empty_opposite

/-- The class `MappedWay`: the 64-bit word `m_id`. -/
structure MappedWay where
  m_id : Nat
deriving DecidableEq, Repr

namespace MappedWay

/-- The default constructor `MappedWay()`. -/
def default : MappedWay := { m_id := 0 }

/-- The constructor `MappedWay(id, type)` on a 64-bit `id`: the word
`(id << 2) | type`, produced when the check of the constructor body passes. -/
def make (id : Nat) (type : WayType) : Option MappedWay :=
  let m_id := ((id <<< 2) % 2 ^ 64) ||| type.code
  (CHECK_EQUAL 0 (id &&& 0xC000000000000000)).bind (fun _ => some { m_id := m_id })

/-- The comparison `operator<`. -/
def less (l r : MappedWay) : Bool := decide (l.m_id < r.m_id)

/-- The method `GetId`. -/
def GetId (w : MappedWay) : Nat := w.m_id >>> 2

/-- The method `GetType`. -/
def GetType (w : MappedWay) : WayType := WayType.static_cast (w.m_id &&& 3)

/-- The order `operator<` gives the value type of a `file_map_t` of mapped
ways: the order of the packed words. -/
instance : LinearOrder MappedWay :=
  LinearOrder.lift' MappedWay.m_id (fun a b h => by cases a; cases b; cases h; rfl)

end MappedWay

end cache

/-! # The editor of map features

A shallow embedding of the parts of `indexer/osm_editor.cpp` that read and
change the feature map of the editor.  The classes `MwmSet::MwmId`,
`FeatureID`, `FeatureType`, `FeatureTypeInfo`, `feature::Metadata::EType`,
`XMLFeature` and `ChangesetWrapper` are declared in headers that are not among
the sources: the model keeps of them what the functions below use.  The
method `Save` (a `const` method) and the callback `m_invalidateFn` leave the
feature map as it is; the file and the screen they touch are outside the
model. -/

namespace osm

/-- The class `MwmSet::MwmId`, of which the editor uses the equality and the
order as a key of `std::map`: a number that identifies a map file. -/
abbrev MwmId := Nat

/-- The class `FeatureID`: the map file and the index of the feature in it. -/
structure FeatureID where
  m_mwmId : MwmId
  m_index : Nat
deriving DecidableEq, Repr

/-- The class `FeatureType`, of which the editor reads the id (`GetID`) and the
types (`feature::TypesHolder`). -/
structure FeatureType where
  m_id : FeatureID
  m_types : List Nat
deriving DecidableEq, Repr

/-- The enumeration `Editor::FeatureStatus`. -/
inductive FeatureStatus where
  | Untouched
  | Deleted
  | Modified
  | Created
deriving DecidableEq, Repr

/-- The structure `Editor::FeatureTypeInfo`, with the fields the functions of
`osm_editor.cpp` read and write. -/
structure FeatureTypeInfo where
  m_status : FeatureStatus
  m_feature : FeatureType
  m_street : String
  m_modificationTimestamp : Int
  m_uploadAttemptTimestamp : Int
  m_uploadStatus : String
  m_uploadError : String
deriving DecidableEq, Repr

/-- The constant `kUploaded`. -/
def kUploaded : String := "Uploaded"

/-- The constant `kDeletedFromOSMServer`. -/
def kDeletedFromOSMServer : String := "Deleted from OSM by someone"

/-- The constant `kNeedsRetry`. -/
def kNeedsRetry : String := "Needs Retry"

/-- The method `find` of a `std::map` with numeric keys, kept as the list of
its pairs: the value of the key, if the key is there. -/
def map_find {V : Type} : List (Nat × V) → Nat → Option V
  | [], _ => none
  | (k1, v1) :: rest, k => if k1 = k then some v1 else map_find rest k

/-- The assignment `m[k] = v` on a `std::map` with numeric keys: the value of
an existing key is replaced, a new key is put in the place its order gives. -/
def map_set {V : Type} : List (Nat × V) → Nat → V → List (Nat × V)
  | [], k, v => [(k, v)]
  | (k1, v1) :: rest, k, v =>
    if k < k1 then (k, v) :: (k1, v1) :: rest
    else if k1 = k then (k, v) :: rest
    else (k1, v1) :: map_set rest k v

/-- The class `Editor`: the member `m_features`, a map from the map file to a
map from the feature index to the information on the feature. -/
structure Editor where
  m_features : List (MwmId × List (Nat × FeatureTypeInfo))
deriving DecidableEq, Repr

namespace Editor

/-- The method `GetFeatureStatus`. -/
def GetFeatureStatus (e : Editor) (mwmId : MwmId) (index : Nat) : FeatureStatus :=
  if e.m_features.isEmpty then FeatureStatus.Untouched
  else
    match map_find e.m_features mwmId with
    | none => FeatureStatus.Untouched
    | some mwmMatched =>
      match map_find mwmMatched index with
      | none => FeatureStatus.Untouched
      | some matchedIndex => matchedIndex.m_status

/-- The element `m_features[mwmId][index]` as `operator[]` yields it: the
entry that is there, or the value-initialised entry `fresh` that `operator[]`
creates. -/
def entry (e : Editor) (fresh : FeatureTypeInfo) (fid : FeatureID) : FeatureTypeInfo :=
  ((map_find ((map_find e.m_features fid.m_mwmId).getD []) fid.m_index)).getD fresh

/-- The feature map after the element `m_features[mwmId][index]` has been
given the value `fti`. -/
def setEntry (e : Editor) (fid : FeatureID) (fti : FeatureTypeInfo) : Editor :=
  { m_features := map_set e.m_features fid.m_mwmId
      (map_set ((map_find e.m_features fid.m_mwmId).getD []) fid.m_index fti) }

/-- The method `DeleteFeature`, at the time `now` that `time(nullptr)` returns;
`fresh` is the entry `operator[]` creates for a feature without one. -/
def DeleteFeature (e : Editor) (fresh : FeatureTypeInfo) (now : Int) (feature : FeatureType) :
    Editor :=
  let fid := feature.m_id
  let ftInfo := e.entry fresh fid
  e.setEntry fid
    { ftInfo with m_status := FeatureStatus.Deleted, m_feature := feature,
                  m_modificationTimestamp := now }

/-- The method `EditFeature`, at the time `now` that `time(nullptr)` returns;
`fresh` is the entry `operator[]` creates for a feature without one. -/
def EditFeature (e : Editor) (fresh : FeatureTypeInfo) (now : Int) (editedFeature : FeatureType)
    (editedStreet : String) : Editor :=
  let fid := editedFeature.m_id
  let fti := e.entry fresh fid
  let fti := { fti with m_status := FeatureStatus.Modified, m_feature := editedFeature,
                        m_modificationTimestamp := now }
  let fti := if !editedStreet.isEmpty then { fti with m_street := editedStreet } else fti
  e.setEntry fid fti

end Editor

/-- What the body of the `try` block of `UploadChanges` comes to for one
feature: the patched feature equals the one on the server and nothing is
uploaded; the node is modified on the server; the server reports that the node
was deleted (`OsmObjectWasDeletedException`); or another `RootException` with
the text `what` is thrown.  The last three carry the time `time(nullptr)`
returns in their branch. -/
inductive UploadOutcome where
  | equalToOsm
  | uploaded (now : Int)
  | wasDeleted (now : Int)
  | failed (what : String) (now : Int)
deriving DecidableEq, Repr

/-- The collaborators of one upload pass, over a state `W` of the changeset,
the server and the clock: whether the XML form of a feature is a node, and the
outcome of the `try` block for a feature. -/
structure UploadEnv (W : Type) where
  isNode : FeatureType → Bool
  attempt : W → FeatureTypeInfo → UploadOutcome × W

namespace Editor

/-- The body of the inner loop of the upload pass for one feature. -/
def uploadFeature {W : Type} (env : UploadEnv W) (w : W) (fti : FeatureTypeInfo) :
    FeatureTypeInfo × W :=
  if !(fti.m_uploadStatus.isEmpty || fti.m_uploadStatus == kNeedsRetry) then (fti, w)
  else if fti.m_status != FeatureStatus.Modified then (fti, w)
  else if !env.isNode fti.m_feature then (fti, w)
  else
    match env.attempt w fti with
    | (UploadOutcome.equalToOsm, w1) => (fti, w1)
    | (UploadOutcome.uploaded now, w1) =>
      ({ fti with m_uploadStatus := kUploaded, m_uploadAttemptTimestamp := now }, w1)
    | (UploadOutcome.wasDeleted now, w1) =>
      ({ fti with m_uploadStatus := kDeletedFromOSMServer, m_uploadAttemptTimestamp := now,
                  m_uploadError := "Node was deleted from the server." }, w1)
    | (UploadOutcome.failed what now, w1) =>
      ({ fti with m_uploadStatus := kNeedsRetry, m_uploadAttemptTimestamp := now,
                  m_uploadError := what }, w1)

/-- The inner loop of the upload pass over the features of one map file. -/
def uploadIndices {W : Type} (env : UploadEnv W) :
    W → List (Nat × FeatureTypeInfo) → List (Nat × FeatureTypeInfo) × W
  | w, [] => ([], w)
  | w, (index, fti) :: rest =>
    let r := uploadFeature env w fti
    let rs := uploadIndices env r.2 rest
    ((index, r.1) :: rs.1, rs.2)

/-- The outer loop of the upload pass over the map files. -/
def uploadMwms {W : Type} (env : UploadEnv W) :
    W → List (MwmId × List (Nat × FeatureTypeInfo)) →
      List (MwmId × List (Nat × FeatureTypeInfo)) × W
  | w, [] => ([], w)
  | w, (id, indices) :: rest =>
    let r := uploadIndices env w indices
    let rs := uploadMwms env r.2 rest
    ((id, r.1) :: rs.1, rs.2)

/-- One upload pass of `UploadChanges`: the function the method runs
asynchronously, from the state `w` of its collaborators. -/
def UploadChanges {W : Type} (env : UploadEnv W) (w : W) (e : Editor) : Editor × W :=
  let r := uploadMwms env w e.m_features
  ({ m_features := r.1 }, r.2)

end Editor

/-- The enumerators of `feature::Metadata::EType` that `osm_editor.cpp`
names. -/
inductive EType where
  | FMD_CUISINE
  | FMD_OPEN_HOURS
  | FMD_PHONE_NUMBER
  | FMD_OPERATOR
  | FMD_WEBSITE
  | FMD_INTERNET
  | FMD_ELE
  | FMD_EMAIL
  | FMD_POSTCODE
  | FMD_WIKIPEDIA
  | FMD_HEIGHT
deriving DecidableEq, Repr

/-- The structure `TypeDescription`. -/
structure TypeDescription where
  fields : List EType
  name : Bool
  address : Bool
deriving DecidableEq, Repr

/-- One row of the table `gEditableTypes`: the readable name of a type and its
description. -/
def editableType (readableName : String) (fields : List EType) (name address : Bool) :
    String × TypeDescription :=
  (readableName, { fields := fields, name := name, address := address })

/-- The table `gEditableTypes`. -/
def gEditableTypes : List (String × TypeDescription) := [
  editableType "aeroway-aerodrome" [EType.FMD_ELE, EType.FMD_OPERATOR] false true,
  editableType "aeroway-airport" [EType.FMD_ELE, EType.FMD_OPERATOR] false true,
  editableType "amenity-atm" [EType.FMD_OPERATOR, EType.FMD_WEBSITE] true false,
  editableType "amenity-bank" [EType.FMD_OPERATOR] true true,
  editableType "amenity-bar" [EType.FMD_CUISINE, EType.FMD_INTERNET] true true,
  editableType "amenity-bicycle_rental" [EType.FMD_OPERATOR] true false,
  editableType "amenity-bureau_de_change" [EType.FMD_OPERATOR] true true,
  editableType "amenity-bus_station" [EType.FMD_OPERATOR] true true,
  editableType "amenity-cafe" [EType.FMD_CUISINE, EType.FMD_OPERATOR, EType.FMD_INTERNET] true true,
  editableType "amenity-car_rental" [EType.FMD_OPERATOR, EType.FMD_INTERNET] true true,
  editableType "amenity-car_sharing" [EType.FMD_OPERATOR, EType.FMD_WEBSITE] true false,
  editableType "amenity-casino" [EType.FMD_OPERATOR, EType.FMD_INTERNET] true true,
  editableType "amenity-cinema" [EType.FMD_OPERATOR] true true,
  editableType "amenity-college" [EType.FMD_OPERATOR] true true,
  editableType "amenity-doctors" [EType.FMD_INTERNET] true true,
  editableType "amenity-drinking_water" [] true false,
  editableType "amenity-embassy" [] true true,
  editableType "amenity-fast_food" [EType.FMD_OPERATOR, EType.FMD_CUISINE] true true,
  editableType "amenity-ferry_terminal" [EType.FMD_OPERATOR] true true,
  editableType "amenity-fire_station" [] true true,
  editableType "amenity-fountain" [] true false,
  editableType "amenity-fuel" [EType.FMD_OPERATOR, EType.FMD_INTERNET] true true,
  editableType "amenity-grave_yard" [] true false,
  editableType "amenity-hospital" [] true true,
  editableType "amenity-hunting_stand" [EType.FMD_HEIGHT] true false,
  editableType "amenity-kindergarten" [EType.FMD_OPERATOR] true true,
  editableType "amenity-library" [EType.FMD_INTERNET] true true,
  editableType "amenity-marketplace" [EType.FMD_OPERATOR] true true,
  editableType "amenity-nightclub" [EType.FMD_OPERATOR, EType.FMD_INTERNET] true true,
  editableType "amenity-parking" [EType.FMD_OPERATOR] true true,
  editableType "amenity-pharmacy" [EType.FMD_OPERATOR] true true,
  editableType "amenity-place_of_worship" [] true true,
  editableType "amenity-police" [] true true,
  editableType "amenity-post_box" [EType.FMD_OPERATOR, EType.FMD_POSTCODE] true false,
  editableType "amenity-post_office" [EType.FMD_OPERATOR, EType.FMD_POSTCODE, EType.FMD_INTERNET] true true,
  editableType "amenity-pub" [EType.FMD_OPERATOR, EType.FMD_CUISINE, EType.FMD_INTERNET] true true,
  editableType "amenity-recycling" [EType.FMD_OPERATOR] true false,
  editableType "amenity-restaurant" [EType.FMD_OPERATOR, EType.FMD_CUISINE, EType.FMD_INTERNET] true true,
  editableType "amenity-school" [EType.FMD_OPERATOR] true true,
  editableType "amenity-taxi" [EType.FMD_OPERATOR] true false,
  editableType "amenity-telephone" [EType.FMD_OPERATOR, EType.FMD_PHONE_NUMBER] false false,
  editableType "amenity-theatre" [] true true,
  editableType "amenity-toilets" [EType.FMD_OPERATOR, EType.FMD_OPEN_HOURS] true false,
  editableType "amenity-townhall" [] true true,
  editableType "amenity-university" [] true true,
  editableType "amenity-waste_disposal" [EType.FMD_OPERATOR, EType.FMD_WEBSITE] false false,
  editableType "highway-bus_stop" [EType.FMD_OPERATOR] true false,
  editableType "historic-archaeological_site" [EType.FMD_WIKIPEDIA] true false,
  editableType "historic-castle" [EType.FMD_WIKIPEDIA] true false,
  editableType "historic-memorial" [EType.FMD_WIKIPEDIA] true false,
  editableType "historic-monument" [EType.FMD_WIKIPEDIA] true false,
  editableType "historic-ruins" [EType.FMD_WIKIPEDIA] true false,
  editableType "internet-access" [EType.FMD_INTERNET] false false,
  editableType "internet-access|wlan" [EType.FMD_INTERNET] false false,
  editableType "landuse-cemetery" [EType.FMD_WIKIPEDIA] true false,
  editableType "leisure-garden" [EType.FMD_OPEN_HOURS, EType.FMD_INTERNET] true false,
  editableType "leisure-sports_centre" [EType.FMD_INTERNET] true true,
  editableType "leisure-stadium" [EType.FMD_WIKIPEDIA, EType.FMD_OPERATOR] true true,
  editableType "leisure-swimming_pool" [EType.FMD_OPERATOR] true true,
  editableType "natural-peak" [EType.FMD_WIKIPEDIA, EType.FMD_ELE] true false,
  editableType "natural-spring" [EType.FMD_WIKIPEDIA] true false,
  editableType "natural-waterfall" [EType.FMD_WIKIPEDIA] true false,
  editableType "office-company" [] true true,
  editableType "office-government" [] true true,
  editableType "office-lawyer" [] true true,
  editableType "office-telecommunication" [EType.FMD_INTERNET, EType.FMD_OPERATOR] true true,
  editableType "place-farm" [EType.FMD_WIKIPEDIA] true false,
  editableType "place-hamlet" [EType.FMD_WIKIPEDIA] true false,
  editableType "place-village" [EType.FMD_WIKIPEDIA] true false,
  editableType "railway-halt" [] true false,
  editableType "railway-station" [EType.FMD_OPERATOR] true false,
  editableType "railway-subway_entrance" [] true false,
  editableType "railway-tram_stop" [EType.FMD_OPERATOR] true false,
  editableType "shop-alcohol" [EType.FMD_INTERNET] true true,
  editableType "shop-bakery" [EType.FMD_INTERNET] true true,
  editableType "shop-beauty" [EType.FMD_INTERNET] true true,
  editableType "shop-beverages" [EType.FMD_INTERNET] true true,
  editableType "shop-bicycle" [EType.FMD_OPERATOR, EType.FMD_INTERNET] true true,
  editableType "shop-books" [EType.FMD_OPERATOR, EType.FMD_INTERNET] true true,
  editableType "shop-butcher" [EType.FMD_INTERNET] true true,
  editableType "shop-car" [EType.FMD_OPERATOR, EType.FMD_INTERNET] true true,
  editableType "shop-car_repair" [EType.FMD_OPERATOR, EType.FMD_INTERNET] true true,
  editableType "shop-chemist" [EType.FMD_INTERNET] true true,
  editableType "shop-clothes" [EType.FMD_OPERATOR, EType.FMD_INTERNET] true true,
  editableType "shop-computer" [EType.FMD_INTERNET] true true,
  editableType "shop-confectionery" [EType.FMD_INTERNET] true true,
  editableType "shop-convenience" [EType.FMD_OPERATOR, EType.FMD_INTERNET] true true,
  editableType "shop-department_store" [EType.FMD_OPERATOR, EType.FMD_INTERNET] false true,
  editableType "shop-doityourself" [EType.FMD_OPERATOR, EType.FMD_INTERNET] true true,
  editableType "shop-electronics" [EType.FMD_OPERATOR, EType.FMD_INTERNET] true true,
  editableType "shop-florist" [EType.FMD_INTERNET] true true,
  editableType "shop-furniture" [EType.FMD_INTERNET] false true,
  editableType "shop-garden_centre" [EType.FMD_INTERNET] true true,
  editableType "shop-gift" [EType.FMD_INTERNET] true true,
  editableType "shop-greengrocer" [EType.FMD_INTERNET] true true,
  editableType "shop-hairdresser" [EType.FMD_INTERNET] true true,
  editableType "shop-hardware" [EType.FMD_INTERNET] true true,
  editableType "shop-jewelry" [EType.FMD_INTERNET] true true,
  editableType "shop-kiosk" [EType.FMD_OPERATOR, EType.FMD_INTERNET] true true,
  editableType "shop-laundry" [EType.FMD_OPERATOR, EType.FMD_INTERNET] true true,
  editableType "shop-mall" [EType.FMD_OPERATOR, EType.FMD_INTERNET] true true,
  editableType "shop-mobile_phone" [EType.FMD_OPERATOR, EType.FMD_INTERNET] true true,
  editableType "shop-optician" [EType.FMD_INTERNET] true true,
  editableType "shop-shoes" [EType.FMD_INTERNET] true true,
  editableType "shop-sports" [EType.FMD_INTERNET] true true,
  editableType "shop-supermarket" [EType.FMD_OPERATOR, EType.FMD_INTERNET] true true,
  editableType "shop-toys" [EType.FMD_INTERNET] true true,
  editableType "tourism-alpine_hut" [EType.FMD_ELE, EType.FMD_OPEN_HOURS, EType.FMD_OPERATOR, EType.FMD_WEBSITE, EType.FMD_INTERNET] true false,
  editableType "tourism-artwork" [EType.FMD_WEBSITE, EType.FMD_WIKIPEDIA] true false,
  editableType "tourism-camp_site" [EType.FMD_OPERATOR, EType.FMD_WEBSITE, EType.FMD_OPEN_HOURS, EType.FMD_INTERNET] true false,
  editableType "tourism-caravan_site" [EType.FMD_WEBSITE, EType.FMD_OPERATOR, EType.FMD_INTERNET] true false,
  editableType "tourism-guest_house" [EType.FMD_OPERATOR, EType.FMD_INTERNET] true true,
  editableType "tourism-hostel" [EType.FMD_OPERATOR, EType.FMD_INTERNET] true true,
  editableType "tourism-hotel" [EType.FMD_OPERATOR, EType.FMD_INTERNET] true true,
  editableType "tourism-information" [] true false,
  editableType "tourism-motel" [EType.FMD_OPERATOR, EType.FMD_INTERNET] true true,
  editableType "tourism-museum" [EType.FMD_OPERATOR, EType.FMD_INTERNET] true true,
  editableType "tourism-viewpoint" [] true false,
  editableType "waterway-waterfall" [EType.FMD_HEIGHT] true false]

/-- The function `GetTypeDescription`; `readableName` is
`classif().GetReadableObjectName`. -/
def GetTypeDescription (readableName : Nat → String) (type : Nat) : Option TypeDescription :=
  gEditableTypes.lookup (readableName type)

/-- The method `insert` of `std::set<EType>`, kept as the list of its elements
in ascending order; `code` is the numeric value of an enumerator, which orders
the set. -/
def set_insert (code : EType → Nat) : List EType → EType → List EType
  | [], x => [x]
  | y :: rest, x =>
    if code x < code y then x :: y :: rest
    else if code y < code x then y :: set_insert code rest x
    else y :: rest

/-- The body of the loop of `EditableMetadataForType` for one type. -/
def addEditableFields (code : EType → Nat) (readableName : Nat → String)
    (fields : List EType) (type : Nat) : List EType :=
  match GetTypeDescription readableName type with
  | some desc =>
    let fields := desc.fields.foldl (set_insert code) fields
    if desc.address then
      [EType.FMD_EMAIL, EType.FMD_OPEN_HOURS, EType.FMD_PHONE_NUMBER, EType.FMD_POSTCODE,
        EType.FMD_WEBSITE].foldl (set_insert code) fields
    else fields
  | none => fields

/-- The method `Editor::EditableMetadataForType`. -/
def EditableMetadataForType (code : EType → Nat) (readableName : Nat → String)
    (feature : FeatureType) : List EType :=
  feature.m_types.foldl (addEditableFields code readableName) []

end osm

/-! ## The write path of the offset table -/

namespace cache.detail

variable {V : Type}

theorem flush_to_file_memory (m : file_map_t V) : m.flush_to_file.m_memory = [] := by
  unfold file_map_t.flush_to_file
  cases hm : m.m_memory <;> simp [hm]

theorem flush_to_file_file (m : file_map_t V) :
    m.flush_to_file.m_file = m.m_file ++ m.m_memory := by
  unfold file_map_t.flush_to_file
  cases hm : m.m_memory <;> simp [hm]

theorem flush_to_file_eq (m : file_map_t V) :
    m.flush_to_file = { m_memory := [], m_file := m.m_file ++ m.m_memory } := by
  have h1 := flush_to_file_memory m
  have h2 := flush_to_file_file m
  cases hf : m.flush_to_file with
  | mk a b => simp_all

/-- Every entry ever written is in the file or in the buffer, in the order of
the writes: `write` adds its entry at the end of that sequence. -/
theorem write_contents (m : file_map_t V) (k : Nat) (v : V) :
    (m.write k v).m_file ++ (m.write k v).m_memory = m.m_file ++ m.m_memory ++ [(k, v)] := by
  unfold file_map_t.write
  by_cases h : m.m_memory.length > s_max_count
  · simp [h, flush_to_file_eq]
  · simp [h]

theorem writes_contents (ws : List (element_t V)) : ∀ m : file_map_t V,
    (m.writes ws).m_file ++ (m.writes ws).m_memory = m.m_file ++ m.m_memory ++ ws := by
  induction ws with
  | nil => intro m; simp [file_map_t.writes]
  | cons w ws ih =>
    intro m
    have h := ih (m.write w.1 w.2)
    rw [write_contents] at h
    simpa [file_map_t.writes] using h

theorem writes_flush (ws : List (element_t V)) (m : file_map_t V) :
    (m.writes ws).flush_to_file = { m_memory := [], m_file := m.m_file ++ m.m_memory ++ ws } := by
  rw [flush_to_file_eq, writes_contents]

/-! ## Sorting and searching the table -/

/-- The loop never stops for lack of iterations: with at least `len` of them
the result is the one `len` iterations give, on any list. -/
theorem bound_loop_fuel (l : List (element_t V)) (p : element_t V → Bool) :
    ∀ fuel first len, len ≤ fuel →
      bound_loop l p fuel first len = bound_loop l p len first len := by
  intro fuel
  induction fuel using Nat.strong_induction_on with
  | _ fuel ih =>
    intro first len hle
    cases fuel with
    | zero =>
      have h0 : len = 0 := by omega
      subst h0
      rfl
    | succ fuel =>
      cases len with
      | zero => simp [bound_loop]
      | succ len =>
        have e1 := ih fuel (by omega) (first + (len + 1) / 2 + 1)
          (len + 1 - (len + 1) / 2 - 1) (by omega)
        have e2 := ih fuel (by omega) first ((len + 1) / 2) (by omega)
        have e3 := ih len (by omega) (first + (len + 1) / 2 + 1)
          (len + 1 - (len + 1) / 2 - 1) (by omega)
        have e4 := ih len (by omega) first ((len + 1) / 2) (by omega)
        simp only [bound_loop, e1, e2, e3, e4]

/-- The halving loop finds the partition point of a list in which the
elements with `p` precede the others; `len` iterations are enough. -/
theorem bound_loop_spec (l : List (element_t V)) (p : element_t V → Bool)
    (hmono : l.Pairwise (fun a b => p b = true → p a = true)) :
    ∀ fuel first len, len ≤ fuel → first + len ≤ l.length →
      (∀ i (h : i < l.length), i < first → p l[i] = true) →
      (∀ i (h : i < l.length), first + len ≤ i → p l[i] = false) →
      bound_loop l p fuel first len ≤ l.length ∧
      (∀ i (h : i < l.length), i < bound_loop l p fuel first len → p l[i] = true) ∧
      (∀ i (h : i < l.length), bound_loop l p fuel first len ≤ i → p l[i] = false) := by
  rw [List.pairwise_iff_getElem] at hmono
  intro fuel
  induction fuel with
  | zero =>
    intro first len hf hlen hl hr
    have h0 : len = 0 := by omega
    subst h0
    exact ⟨by simpa [bound_loop] using hlen, by simpa [bound_loop] using hl,
      by simpa [bound_loop] using hr⟩
  | succ fuel ih =>
    intro first len hf hlen hl hr
    by_cases h0 : 0 < len
    · have hmid : first + len / 2 < l.length := by omega
      have hget : l[first + len / 2]? = some l[first + len / 2] :=
        List.getElem?_eq_getElem hmid
      cases hp : p l[first + len / 2] with
      | true =>
        have hstep : bound_loop l p (fuel + 1) first len
            = bound_loop l p fuel (first + len / 2 + 1) (len - len / 2 - 1) := by
          simp [bound_loop, h0, hget, hp]
        rw [hstep]
        apply ih
        · omega
        · omega
        · intro i hi hlt
          by_cases hm : i = first + len / 2
          · subst hm; exact hp
          · exact hmono i (first + len / 2) hi hmid (by omega) hp
        · intro i hi hge
          exact hr i hi (by omega)
      | false =>
        have hstep : bound_loop l p (fuel + 1) first len
            = bound_loop l p fuel first (len / 2) := by
          simp [bound_loop, h0, hget, hp]
        rw [hstep]
        apply ih
        · omega
        · omega
        · exact hl
        · intro i hi hge
          by_cases hm : i = first + len / 2
          · subst hm; exact hp
          · cases hpi : p l[i] with
            | false => rfl
            | true =>
              have := hmono (first + len / 2) i hmid hi (by omega) hpi
              rw [hp] at this
              exact absurd this (by simp)
    · have hstep : bound_loop l p (fuel + 1) first len = first := by
        simp [bound_loop, h0]
      rw [hstep]
      exact ⟨by omega, hl, fun i hi hge => hr i hi (by omega)⟩

/-- The partition point in terms of the two halves of the list. -/
theorem bound_loop_partition (l : List (element_t V)) (p : element_t V → Bool)
    (hmono : l.Pairwise (fun a b => p b = true → p a = true)) :
    bound_loop l p l.length 0 l.length ≤ l.length ∧
    (∀ x ∈ l.take (bound_loop l p l.length 0 l.length), p x = true) ∧
    (∀ x ∈ l.drop (bound_loop l p l.length 0 l.length), p x = false) := by
  obtain ⟨h1, h2, h3⟩ := bound_loop_spec l p hmono l.length 0 l.length (le_refl _)
    (by omega) (fun i _ hi => absurd hi (by omega)) (fun i h hi => absurd h (by omega))
  refine ⟨h1, ?_, ?_⟩
  · intro x hx
    rw [List.mem_take_iff_getElem] at hx
    obtain ⟨i, hi, rfl⟩ := hx
    exact h2 i (by omega) (by omega)
  · intro x hx
    rw [List.mem_drop_iff_getElem] at hx
    obtain ⟨i, hi, rfl⟩ := hx
    exact h3 _ (by omega) (by omega)

section order

variable [LinearOrder V]

theorem element_less_eq_false_iff (a b : element_t V) :
    element_less b a = false ↔ a.1 < b.1 ∨ (a.1 = b.1 ∧ a.2 ≤ b.2) := by
  unfold element_less
  by_cases h : b.1 = a.1
  · simp [h]
  · simp only [h, if_false, decide_eq_false_iff_not, not_lt]
    constructor
    · intro h1
      exact Or.inl (lt_of_le_of_ne h1 (fun e => h e.symm))
    · rintro (h1 | ⟨h1, _⟩)
      · exact le_of_lt h1
      · exact absurd h1.symm h

theorem element_le_total :
    IsTotal (element_t V) (fun a b => element_less b a = false) where
  total a b := by
    simp only [element_less_eq_false_iff]
    rcases lt_trichotomy a.1 b.1 with h | h | h
    · exact Or.inl (Or.inl h)
    · rcases le_total a.2 b.2 with h2 | h2
      · exact Or.inl (Or.inr ⟨h, h2⟩)
      · exact Or.inr (Or.inr ⟨h.symm, h2⟩)
    · exact Or.inr (Or.inl h)

theorem element_le_trans :
    IsTrans (element_t V) (fun a b => element_less b a = false) where
  trans a b c := by
    simp only [element_less_eq_false_iff]
    rintro (h1 | ⟨h1, h1v⟩) (h2 | ⟨h2, h2v⟩)
    · exact Or.inl (lt_trans h1 h2)
    · exact Or.inl (h2 ▸ h1)
    · exact Or.inl (h1 ▸ h2)
    · exact Or.inr ⟨h1.trans h2, le_trans h1v h2v⟩

theorem element_le_antisymm :
    IsAntisymm (element_t V) (fun a b => element_less b a = false) where
  antisymm a b := by
    simp only [element_less_eq_false_iff]
    rintro (h1 | ⟨h1, h1v⟩) (h2 | ⟨h2, h2v⟩)
    · exact absurd h1 (lt_asymm h2)
    · exact absurd h1 (by omega)
    · exact absurd h2 (by omega)
    · exact Prod.ext h1 (le_antisymm h1v h2v)

theorem sort_perm (l : List (element_t V)) : (sort l).Perm l :=
  List.perm_insertionSort _ l

theorem sort_sorted (l : List (element_t V)) : TableSorted (sort l) :=
  haveI := element_le_total (V := V)
  haveI := element_le_trans (V := V)
  List.sorted_insertionSort _ l

/-- The result of `std::sort` does not depend on the sorting algorithm: every
sorted rearrangement of `l` is `sort l`. -/
theorem sort_unique (l l' : List (element_t V)) (hp : l'.Perm l) (hs : TableSorted l') :
    l' = sort l :=
  haveI := element_le_antisymm (V := V)
  List.eq_of_perm_of_sorted (hp.trans (sort_perm l).symm) hs (sort_sorted l)

theorem uint64_to_size_eq (v : Nat) (h : v < size_t_max) : uint64_to_size v = some v := by
  simp [uint64_to_size, ASSERT, h]

theorem read_to_memory_eq (m : file_map_t V)
    (h : sizeof_element_t * m.m_file.length < 2 ^ 64) :
    m.read_to_memory = some { m_memory := sort m.m_file, m_file := m.m_file } := by
  have h' : 16 * m.m_file.length < 2 ^ 64 := h
  have hm : size_t_max = 2 ^ 64 - 1 := rfl
  by_cases h0 : m.m_file = []
  · simp [file_map_t.read_to_memory, h0, sort]
  · have hpos : 0 < m.m_file.length := List.length_pos.mpr h0
    have hne : ¬ (sizeof_element_t * m.m_file.length = 0) := by
      show ¬ (16 * m.m_file.length = 0)
      omega
    have hdiv : sizeof_element_t * m.m_file.length / sizeof_element_t = m.m_file.length := by
      show 16 * m.m_file.length / 16 = m.m_file.length
      omega
    have e1 := uint64_to_size_eq m.m_file.length (by rw [hm]; omega)
    have e2 := uint64_to_size_eq (sizeof_element_t * m.m_file.length)
      (by rw [hm]; show 16 * m.m_file.length < 2 ^ 64 - 1; omega)
    simp only [file_map_t.read_to_memory, hne, if_false, hdiv, e1, e2, List.take_length]

theorem sorted_fst_le {l : List (element_t V)} (hs : TableSorted l) :
    l.Pairwise (fun a b => a.1 ≤ b.1) := by
  refine List.Pairwise.imp ?_ hs
  intro a b h
  rcases (element_less_eq_false_iff a b).mp h with h1 | ⟨h1, _⟩
  · exact le_of_lt h1
  · exact le_of_eq h1

theorem lower_bound_spec {l : List (element_t V)} (hs : TableSorted l) (k : Nat) :
    lower_bound l k ≤ l.length ∧
    (∀ x ∈ l.take (lower_bound l k), x.1 < k) ∧
    (∀ x ∈ l.drop (lower_bound l k), k ≤ x.1) := by
  have hmono : l.Pairwise
      (fun a b => element_less_key b k = true → element_less_key a k = true) := by
    refine List.Pairwise.imp ?_ (sorted_fst_le hs)
    intro a b hab
    simp only [element_less_key, decide_eq_true_eq]
    omega
  obtain ⟨h1, h2, h3⟩ := bound_loop_partition l (fun e => element_less_key e k) hmono
  refine ⟨h1, ?_, ?_⟩
  · intro x hx
    simpa [element_less_key] using h2 x hx
  · intro x hx
    simpa [element_less_key] using h3 x hx

theorem upper_bound_spec {l : List (element_t V)} (hs : TableSorted l) (k : Nat) :
    upper_bound l k ≤ l.length ∧
    (∀ x ∈ l.take (upper_bound l k), x.1 ≤ k) ∧
    (∀ x ∈ l.drop (upper_bound l k), k < x.1) := by
  have hmono : l.Pairwise
      (fun a b => (!key_less_element k b) = true → (!key_less_element k a) = true) := by
    refine List.Pairwise.imp ?_ (sorted_fst_le hs)
    intro a b hab
    simp only [key_less_element, Bool.not_eq_true', decide_eq_false_iff_not]
    omega
  obtain ⟨h1, h2, h3⟩ := bound_loop_partition l (fun e => !key_less_element k e) hmono
  refine ⟨h1, ?_, ?_⟩
  · intro x hx
    simpa [key_less_element] using h2 x hx
  · intro x hx
    simpa [key_less_element] using h3 x hx

/-- On a sorted table the two iterators of `equal_range` enclose exactly the
entries whose id is `k`. -/
theorem range_eq_filter {l : List (element_t V)} (hs : TableSorted l) (k : Nat) :
    (l.drop (lower_bound l k)).take (upper_bound l k - lower_bound l k)
      = l.filter (fun e => decide (e.1 = k)) := by
  obtain ⟨hlo, hA, hA'⟩ := lower_bound_spec hs k
  obtain ⟨hhi, hC, hC'⟩ := upper_bound_spec hs k
  have hle : lower_bound l k ≤ upper_bound l k := by
    by_contra hlt
    have hlt : upper_bound l k < lower_bound l k := by omega
    have hi : upper_bound l k < l.length := by omega
    have h1 := hA l[upper_bound l k]
      (List.mem_take_iff_getElem.mpr ⟨upper_bound l k, by omega, rfl⟩)
    have h2 := hC' l[upper_bound l k]
      (List.mem_drop_iff_getElem.mpr ⟨0, by omega, rfl⟩)
    omega
  have hB : ∀ x ∈ (l.drop (lower_bound l k)).take (upper_bound l k - lower_bound l k),
      x.1 = k := by
    intro x hx
    have h1 := hA' x (List.mem_of_mem_take hx)
    rw [← List.drop_take] at hx
    have h2 := hC x (List.mem_of_mem_drop hx)
    omega
  have hsplit : l = l.take (lower_bound l k)
      ++ ((l.drop (lower_bound l k)).take (upper_bound l k - lower_bound l k)
      ++ l.drop (upper_bound l k)) := by
    have h3 : l.drop (upper_bound l k)
        = (l.drop (lower_bound l k)).drop (upper_bound l k - lower_bound l k) := by
      rw [List.drop_drop]
      congr 1
      omega
    rw [h3, List.take_append_drop, List.take_append_drop]
  have f1 : (l.take (lower_bound l k)).filter (fun e => decide (e.1 = k)) = [] := by
    rw [List.filter_eq_nil_iff]
    intro x hx
    have := hA x hx
    simp only [decide_eq_true_eq]
    omega
  have f2 : (l.drop (upper_bound l k)).filter (fun e => decide (e.1 = k)) = [] := by
    rw [List.filter_eq_nil_iff]
    intro x hx
    have := hC' x hx
    simp only [decide_eq_true_eq]
    omega
  have f3 : ((l.drop (lower_bound l k)).take
      (upper_bound l k - lower_bound l k)).filter (fun e => decide (e.1 = k))
      = (l.drop (lower_bound l k)).take (upper_bound l k - lower_bound l k) := by
    rw [List.filter_eq_self]
    intro x hx
    simpa using hB x hx
  conv_rhs => rw [hsplit]
  rw [List.filter_append, List.filter_append, f1, f2, f3]
  simp

/-- On a sorted table `read_one` reports the first entry whose id is `k`, if
there is one. -/
theorem read_one_sorted {l : List (element_t V)} (hs : TableSorted l)
    (f : List (element_t V)) (k : Nat) (v : V) :
    file_map_t.read_one { m_memory := l, m_file := f } k v =
      match (l.filter (fun e => decide (e.1 = k))).head? with
      | some e => (true, e.2)
      | none => (false, v) := by
  obtain ⟨hlo, hA, hA'⟩ := lower_bound_spec hs k
  have f1 : (l.take (lower_bound l k)).filter (fun e => decide (e.1 = k)) = [] := by
    rw [List.filter_eq_nil_iff]
    intro x hx
    have := hA x hx
    simp only [decide_eq_true_eq]
    omega
  have hsplit : l.filter (fun e => decide (e.1 = k))
      = (l.drop (lower_bound l k)).filter (fun e => decide (e.1 = k)) := by
    conv_lhs => rw [← List.take_append_drop (lower_bound l k) l]
    rw [List.filter_append, f1, List.nil_append]
  have hget : l[lower_bound l k]? = (l.drop (lower_bound l k)).head? := by simp
  have hsd : (l.drop (lower_bound l k)).Pairwise (fun a b => a.1 ≤ b.1) :=
    (sorted_fst_le hs).sublist (List.drop_sublist _ _)
  unfold file_map_t.read_one
  simp only [hget, hsplit]
  cases hd : l.drop (lower_bound l k) with
  | nil => simp
  | cons e rest =>
    rw [hd] at hA' hsd
    by_cases he : e.1 = k
    · simp [he]
    · have hgt : k < e.1 := by
        have := hA' e (List.mem_cons_self _ _)
        omega
      have hrest : rest.filter (fun e => decide (e.1 = k)) = [] := by
        rw [List.filter_eq_nil_iff]
        intro x hx
        have := List.rel_of_pairwise_cons hsd hx
        simp only [decide_eq_true_eq]
        omega
      simp [he, hrest]

theorem range_length {l : List (element_t V)} (hs : TableSorted l) (k : Nat) :
    lower_bound l k + (l.filter (fun e => decide (e.1 = k))).length = upper_bound l k := by
  obtain ⟨hlo, hA, _⟩ := lower_bound_spec hs k
  obtain ⟨hhi, _, hC'⟩ := upper_bound_spec hs k
  have hle : lower_bound l k ≤ upper_bound l k := by
    by_contra hlt
    have hi : upper_bound l k < l.length := by omega
    have h1 := hA l[upper_bound l k]
      (List.mem_take_iff_getElem.mpr ⟨upper_bound l k, by omega, rfl⟩)
    have h2 := hC' l[upper_bound l k]
      (List.mem_drop_iff_getElem.mpr ⟨0, by omega, rfl⟩)
    omega
  rw [← range_eq_filter hs k, List.length_take, List.length_drop]
  omega

/-- The entries of a given id keep their number and their values under any
rearrangement of the table, and in a sorted table their values ascend. -/
theorem filter_sort (ws : List (element_t V)) (k : Nat) :
    (((sort ws).filter (fun e => decide (e.1 = k))).map Prod.snd).Perm
        ((ws.filter (fun e => decide (e.1 = k))).map Prod.snd) ∧
    (((sort ws).filter (fun e => decide (e.1 = k))).map Prod.snd).Pairwise (fun a b => a ≤ b) := by
  refine ⟨((sort_perm ws).filter _).map _, ?_⟩
  rw [List.pairwise_map]
  have hs : TableSorted ((sort ws).filter (fun e => decide (e.1 = k))) :=
    List.Pairwise.sublist (List.filter_sublist _) (sort_sorted ws)
  refine List.Pairwise.imp_of_mem ?_ hs
  intro a b ha hb hab
  have ha1 : a.1 = k := by simpa using (List.mem_filter.mp ha).2
  have hb1 : b.1 = k := by simpa using (List.mem_filter.mp hb).2
  rcases (element_less_eq_false_iff a b).mp hab with h | ⟨_, h⟩
  · omega
  · exact h

theorem read_one_sort_found (ws f : List (element_t V)) (k : Nat) (v0 : V)
    (hk : k ∈ ws.map Prod.fst) :
    ∃ v, file_map_t.read_one { m_memory := sort ws, m_file := f } k v0 = (true, v)
      ∧ (k, v) ∈ ws := by
  rw [read_one_sorted (sort_sorted ws)]
  obtain ⟨e, he, hek⟩ := List.mem_map.mp hk
  have hmem : e ∈ (sort ws).filter (fun e => decide (e.1 = k)) :=
    List.mem_filter.mpr ⟨(sort_perm ws).mem_iff.mpr he, by simpa using hek⟩
  cases hfl : (sort ws).filter (fun e => decide (e.1 = k)) with
  | nil => rw [hfl] at hmem; exact absurd hmem (List.not_mem_nil _)
  | cons x rest =>
    have hx : x ∈ (sort ws).filter (fun e => decide (e.1 = k)) := by
      rw [hfl]; exact List.mem_cons_self _ _
    obtain ⟨hx1, hx2⟩ := List.mem_filter.mp hx
    have hx2 : x.1 = k := by simpa using hx2
    refine ⟨x.2, by simp, ?_⟩
    have := (sort_perm ws).mem_iff.mp hx1
    rw [← hx2]
    exact this

theorem read_one_sort_missing (ws f : List (element_t V)) (k : Nat) (v0 : V)
    (hk : k ∉ ws.map Prod.fst) :
    file_map_t.read_one { m_memory := sort ws, m_file := f } k v0 = (false, v0) := by
  rw [read_one_sorted (sort_sorted ws)]
  have hnil : (sort ws).filter (fun e => decide (e.1 = k)) = [] := by
    rw [List.filter_eq_nil_iff]
    intro x hx hxk
    exact hk (List.mem_map.mpr ⟨x, (sort_perm ws).mem_iff.mp hx, by simpa using hxk⟩)
  simp [hnil]

/-- The offset file a fresh table leaves after the writes `ws` and a final
`flush_to_file`, loaded by any table over that file. -/
theorem reload_eq (ws mem0 : List (element_t V))
    (hsize : sizeof_element_t * ws.length < 2 ^ 64) :
    file_map_t.read_to_memory
        { m_memory := mem0, m_file := ((file_map_t.init []).writes ws).flush_to_file.m_file }
      = some { m_memory := sort ws, m_file := ws } := by
  have hf : ((file_map_t.init ([] : List (element_t V))).writes ws).flush_to_file.m_file
      = ws := by
    rw [writes_flush]; simp [file_map_t.init]
  rw [hf]
  exact read_to_memory_eq { m_memory := mem0, m_file := ws } hsize

end order

theorem for_each_loop_never {S : Type} (toDo : S → V → S × Bool)
    (hnever : ∀ s v, (toDo s v).2 = false) (es : List (element_t V)) : ∀ s : S,
    file_map_t.for_each_loop toDo es s
      = (es.map Prod.snd).foldl (fun s v => (toDo s v).1) s := by
  induction es with
  | nil => intro s; rfl
  | cons e rest ih =>
    intro s
    simp [file_map_t.for_each_loop, hnever, ih]

theorem foldl_log (vals : List V) : ∀ s : List V,
    vals.foldl (fun s v => s ++ [v]) s = s ++ vals := by
  induction vals with
  | nil => intro s; simp
  | cons v rest ih => intro s; simp [ih]

/-- While the buffer does not exceed `s_max_count` before a write, no write
flushes: the entries stay in the buffer and the file is untouched. -/
theorem writes_no_flush (ws : List (element_t V)) : ∀ m : file_map_t V,
    m.m_memory.length + ws.length ≤ s_max_count + 1 →
    m.writes ws = { m_memory := m.m_memory ++ ws, m_file := m.m_file } := by
  induction ws with
  | nil => intro m _; simp [file_map_t.writes]
  | cons w ws ih =>
    intro m h
    simp only [List.length_cons] at h
    have hw : m.write w.1 w.2 = { m_memory := m.m_memory ++ [w], m_file := m.m_file } := by
      unfold file_map_t.write
      have : ¬ m.m_memory.length > s_max_count := by omega
      simp [this]
    have := ih (m.write w.1 w.2) (by rw [hw]; simp; omega)
    rw [hw] at this
    simpa [file_map_t.writes, hw] using this

end cache.detail

/-! ## The record stream and its offsets -/

namespace cache

open detail

theorem Write_stream {T : Type} (c : Codec T) (w : DataFileWriter) (id : Nat) (t : T) :
    (w.Write c id t).m_stream = w.m_stream ++ c.put t := rfl

theorem Write_offsets {T : Type} (c : Codec T) (w : DataFileWriter) (id : Nat) (t : T) :
    (w.Write c id t).m_offsets.m_file ++ (w.Write c id t).m_offsets.m_memory
      = w.m_offsets.m_file ++ w.m_offsets.m_memory ++ [(id, w.m_stream.length)] := by
  unfold DataFileWriter.Write DataFileWriter.Pos
  exact write_contents _ _ _

theorem Writes_stream {T : Type} (c : Codec T) (ws : List (Nat × T)) :
    ∀ w : DataFileWriter,
    (w.Writes c ws).m_stream = w.m_stream ++ (ws.map (fun x => c.put x.2)).flatten := by
  induction ws with
  | nil => intro w; simp [DataFileWriter.Writes]
  | cons x ws ih =>
    intro w
    have h := ih (w.Write c x.1 x.2)
    rw [Write_stream] at h
    simpa [DataFileWriter.Writes] using h

theorem Writes_offsets {T : Type} (c : Codec T) (ws : List (Nat × T)) :
    ∀ w : DataFileWriter,
    (w.Writes c ws).m_offsets.m_file ++ (w.Writes c ws).m_offsets.m_memory
      = w.m_offsets.m_file ++ w.m_offsets.m_memory
        ++ DataFileWriter.recordOffsets c w.m_stream.length ws := by
  induction ws with
  | nil => intro w; simp [DataFileWriter.Writes, DataFileWriter.recordOffsets]
  | cons x ws ih =>
    intro w
    have h := ih (w.Write c x.1 x.2)
    rw [Write_offsets, Write_stream] at h
    simpa [DataFileWriter.Writes, DataFileWriter.recordOffsets] using h

theorem recordOffsets_length {T : Type} (c : Codec T) (ws : List (Nat × T)) :
    ∀ p, (DataFileWriter.recordOffsets c p ws).length = ws.length := by
  induction ws with
  | nil => intro p; rfl
  | cons x ws ih => intro p; simp [DataFileWriter.recordOffsets, ih]

theorem recordOffsets_ids {T : Type} (c : Codec T) (ws : List (Nat × T)) :
    ∀ p, (DataFileWriter.recordOffsets c p ws).map Prod.fst = ws.map Prod.fst := by
  induction ws with
  | nil => intro p; rfl
  | cons x ws ih => intro p; simp [DataFileWriter.recordOffsets, ih]

/-- The entry recorded by the write at position `i` holds the id of that
write and the total length of the records written before it. -/
theorem recordOffsets_getElem {T : Type} (c : Codec T) (ws : List (Nat × T)) :
    ∀ p i (h : i < ws.length),
    (DataFileWriter.recordOffsets c p ws)[i]?
      = some (ws[i].1, p + ((ws.take i).map (fun x => (c.put x.2).length)).sum) := by
  induction ws with
  | nil => intro p i h; simp at h
  | cons x ws ih =>
    intro p i h
    cases i with
    | zero => simp [DataFileWriter.recordOffsets]
    | succ i =>
      have h2 : i < ws.length := by simpa using h
      simp [DataFileWriter.recordOffsets, ih _ i h2, Nat.add_assoc]

/-- Every recorded offset is the start of a record of its id in the stream. -/
theorem recordOffsets_start {T : Type} (c : Codec T) (ws : List (Nat × T)) :
    ∀ p, ∀ e ∈ DataFileWriter.recordOffsets c p ws,
    ∃ t rest, (e.1, t) ∈ ws ∧ p ≤ e.2 ∧
      ((ws.map (fun x => c.put x.2)).flatten).drop (e.2 - p) = c.put t ++ rest := by
  induction ws with
  | nil => intro p e he; simp [DataFileWriter.recordOffsets] at he
  | cons x ws ih =>
    intro p e he
    simp only [DataFileWriter.recordOffsets, List.mem_cons] at he
    rcases he with rfl | he
    · exact ⟨x.2, (ws.map (fun x => c.put x.2)).flatten, by simp, le_refl _, by simp⟩
    · obtain ⟨t, rest, hmem, hle, hdrop⟩ := ih _ e he
      refine ⟨t, rest, List.mem_cons_of_mem _ hmem, by omega, ?_⟩
      have hsub : e.2 - p = (c.put x.2).length + (e.2 - (p + (c.put x.2).length)) := by omega
      rw [List.map_cons, List.flatten_cons, hsub, ← List.drop_drop, List.drop_left]
      exact hdrop

theorem nodup_fst_unique {T : Type} {ws : List (Nat × T)} (hd : (ws.map Prod.fst).Nodup)
    {id : Nat} {t t' : T} (h : (id, t) ∈ ws) (h' : (id, t') ∈ ws) : t = t' := by
  have := List.inj_on_of_nodup_map hd h h' rfl
  exact (Prod.mk.inj this).2

theorem stream_drop_offset {T : Type} (c : Codec T) (ws : List (Nat × T)) :
    ∀ i (h : i < ws.length),
    ((ws.map (fun x => c.put x.2)).flatten).drop
        (((ws.take i).map (fun x => (c.put x.2).length)).sum)
      = c.put ws[i].2 ++ ((ws.drop (i + 1)).map (fun x => c.put x.2)).flatten := by
  induction ws with
  | nil => intro i h; simp at h
  | cons x ws ih =>
    intro i h
    cases i with
    | zero => simp
    | succ i =>
      have h2 : i < ws.length := by simpa using h
      have := ih i h2
      simp only [List.take_succ_cons, List.map_cons, List.sum_cons, List.flatten_cons,
        List.drop_succ_cons, List.getElem_cons_succ]
      rw [← List.drop_drop, List.drop_left]
      exact this

theorem stringCodec_get_put (t rest : List Byte) :
    (stringCodec.get (stringCodec.put t ++ rest)).1 = t := by
  simp [stringCodec]

/-! ## The packed way id -/

theorem top_bits_zero_iff (id : Nat) (h : id < 2 ^ 64) :
    0 = id &&& 0xC000000000000000 ↔ id < 2 ^ 62 := by
  have hC : (0xC000000000000000 : Nat) = 2 ^ 62 * 3 := by norm_num
  constructor
  · intro h0
    apply Nat.lt_pow_two_of_testBit
    intro i hi
    by_cases h64 : 64 ≤ i
    · exact Nat.testBit_lt_two_pow (lt_of_lt_of_le h (Nat.pow_le_pow_right (by omega) h64))
    · have hb : (id &&& 0xC000000000000000).testBit i = false := by
        rw [← h0]; simp
      rw [Nat.testBit_and] at hb
      have hc : (0xC000000000000000 : Nat).testBit i = true := by
        have : i = 62 ∨ i = 63 := by omega
        rcases this with rfl | rfl <;> decide
      rw [hc, Bool.and_true] at hb
      exact hb
  · intro hlt
    symm
    apply Nat.eq_of_testBit_eq
    intro i
    rw [Nat.testBit_and, Nat.zero_testBit]
    by_cases h62 : 62 ≤ i
    · rw [Nat.testBit_lt_two_pow (lt_of_lt_of_le hlt (Nat.pow_le_pow_right (by omega) h62))]
      simp
    · rw [hC, Nat.testBit_mul_pow_two]
      have : ¬ i ≥ 62 := h62
      simp [this]

theorem pack_eq (id t : Nat) (h : id < 2 ^ 62) (ht : t < 4) :
    ((id <<< 2) % 2 ^ 64) ||| t = 4 * id + t := by
  have h1 : id <<< 2 = 4 * id := by rw [Nat.shiftLeft_eq]; omega
  have h2 : 4 * id % 2 ^ 64 = 4 * id := Nat.mod_eq_of_lt (by omega)
  rw [h1, h2]
  exact (Nat.mul_add_lt_is_or (i := 2) ht id).symm

theorem WayType.code_lt (t : WayType) : t.code < 4 := by
  cases t <;> decide

theorem WayType.static_cast_code (t : WayType) : WayType.static_cast t.code = t := by
  cases t <;> rfl

end cache

/-! ## Further facts about the table and the reader -/

namespace cache.detail

variable {V : Type}

theorem write_eq (m : file_map_t V) (k : Nat) (v : V) :
    m.write k v =
      if m.m_memory.length > 1024 then
        { m_memory := [(k, v)], m_file := m.m_file ++ m.m_memory }
      else { m_memory := m.m_memory ++ [(k, v)], m_file := m.m_file } := by
  unfold file_map_t.write
  by_cases h : m.m_memory.length > 1024
  · have h2 : m.m_memory.length > s_max_count := h
    simp [h, h2, flush_to_file_eq]
  · have h2 : ¬ m.m_memory.length > s_max_count := h
    simp [h, h2]

theorem write_memory_le (m : file_map_t V) (k : Nat) (v : V) :
    (m.write k v).m_memory.length ≤ 1025 := by
  rw [write_eq]
  by_cases h : m.m_memory.length > 1024
  · simp [h]
  · simp [h]; omega

theorem writes_memory_le (ws : List (element_t V)) : ∀ m : file_map_t V,
    m.m_memory.length ≤ 1025 → (m.writes ws).m_memory.length ≤ 1025 := by
  induction ws with
  | nil => intro m h; simpa [file_map_t.writes] using h
  | cons w ws ih =>
    intro m _
    have := ih (m.write w.1 w.2) (write_memory_le m w.1 w.2)
    simpa [file_map_t.writes] using this

theorem read_one_hit (m : file_map_t V) (k : Nat) (v x : V)
    (h : m.read_one k v = (true, x)) : ∀ v', m.read_one k v' = (true, x) := by
  intro v'
  unfold file_map_t.read_one at h ⊢
  cases hg : m.m_memory[lower_bound m.m_memory k]? with
  | none => simp [hg] at h
  | some e =>
    by_cases he : e.1 = k
    · simpa [hg, he] using h
    · simp [hg, he] at h

theorem read_one_miss (m : file_map_t V) (k : Nat) (v : V)
    (h : (m.read_one k v).1 = false) : ∀ v', m.read_one k v' = (false, v') := by
  intro v'
  unfold file_map_t.read_one at h ⊢
  dsimp only at h ⊢
  cases hg : m.m_memory[lower_bound m.m_memory k]? with
  | none => rfl
  | some e =>
    rw [hg] at h
    by_cases he : e.1 = k
    · simp [he] at h
    · simp [he]

theorem head?_filter_eq_find? {α : Type} (p : α → Bool) (l : List α) :
    (l.filter p).head? = l.find? p := by
  induction l with
  | nil => rfl
  | cons a l ih =>
    cases hp : p a <;> simp [List.filter_cons, List.find?_cons, hp, ih]

/-- The calls of a visitor during the loop of `for_each_ret`: the recorded
values are a prefix of the values of the range, ending with the first call
that returns `true`, or all of them when no call does. -/
theorem for_each_loop_record {S : Type} (toDo : S → V → S × Bool)
    (es : List (element_t V)) : ∀ (s : S) (log : List V),
    (file_map_t.for_each_loop (file_map_t.recordCalls toDo) es (s, log)).1
      = file_map_t.for_each_loop toDo es s ∧
    (((∀ i v, (es.map Prod.snd)[i]? = some v →
          (toDo (((es.map Prod.snd).take i).foldl (fun s v => (toDo s v).1) s) v).2 = false) ∧
        (file_map_t.for_each_loop (file_map_t.recordCalls toDo) es (s, log)).2
          = log ++ es.map Prod.snd) ∨
      (∃ i v, (es.map Prod.snd)[i]? = some v ∧
        (toDo (((es.map Prod.snd).take i).foldl (fun s v => (toDo s v).1) s) v).2 = true ∧
        (∀ j w, j < i → (es.map Prod.snd)[j]? = some w →
          (toDo (((es.map Prod.snd).take j).foldl (fun s v => (toDo s v).1) s) w).2 = false) ∧
        (file_map_t.for_each_loop (file_map_t.recordCalls toDo) es (s, log)).2
          = log ++ (es.map Prod.snd).take (i + 1))) := by
  induction es with
  | nil =>
    intro s log
    exact ⟨rfl, Or.inl ⟨by simp, by simp [file_map_t.for_each_loop]⟩⟩
  | cons e rest ih =>
    intro s log
    cases hstop : (toDo s e.2).2 with
    | true =>
      have hloop : file_map_t.for_each_loop (file_map_t.recordCalls toDo) (e :: rest) (s, log)
          = ((toDo s e.2).1, log ++ [e.2]) := by
        simp [file_map_t.for_each_loop, file_map_t.recordCalls, hstop]
      refine ⟨by rw [hloop]; simp [file_map_t.for_each_loop, hstop], Or.inr ⟨0, e.2, ?_⟩⟩
      refine ⟨by simp, by simpa using hstop, ?_, by simp [hloop]⟩
      intro j w hj
      exact absurd hj (by omega)
    | false =>
      have hloop : file_map_t.for_each_loop (file_map_t.recordCalls toDo) (e :: rest) (s, log)
          = file_map_t.for_each_loop (file_map_t.recordCalls toDo) rest
              ((toDo s e.2).1, log ++ [e.2]) := by
        simp [file_map_t.for_each_loop, file_map_t.recordCalls, hstop]
      have hplain : file_map_t.for_each_loop toDo (e :: rest) s
          = file_map_t.for_each_loop toDo rest (toDo s e.2).1 := by
        simp [file_map_t.for_each_loop, hstop]
      obtain ⟨h1, h2⟩ := ih (toDo s e.2).1 (log ++ [e.2])
      rw [hloop, hplain]
      refine ⟨h1, ?_⟩
      rcases h2 with ⟨hall, hlog⟩ | ⟨i, v, hi, htrue, hbefore, hlog⟩
      · left
        refine ⟨?_, by simp [hlog]⟩
        intro i v hi
        cases i with
        | zero =>
          have : e.2 = v := by simpa using hi
          subst this
          simpa using hstop
        | succ i =>
          have := hall i v (by simpa using hi)
          simpa using this
      · right
        refine ⟨i + 1, v, by simpa using hi, by simpa using htrue, ?_, by simp [hlog]⟩
        intro j w hj hw
        cases j with
        | zero =>
          have : e.2 = w := by simpa using hw
          subst this
          simpa using hstop
        | succ j =>
          have := hbefore j w (by omega) (by simpa using hw)
          simpa using this

section order

variable [LinearOrder V]

theorem sorted_filter_values {l : List (element_t V)} (hs : TableSorted l) (k : Nat) :
    ((l.filter (fun e => decide (e.1 = k))).map Prod.snd).Pairwise (fun a b => a ≤ b) := by
  rw [List.pairwise_map]
  have hf : TableSorted (l.filter (fun e => decide (e.1 = k))) :=
    List.Pairwise.sublist (List.filter_sublist _) hs
  refine List.Pairwise.imp_of_mem ?_ hf
  intro a b ha hb hab
  have ha1 : a.1 = k := by simpa using (List.mem_filter.mp ha).2
  have hb1 : b.1 = k := by simpa using (List.mem_filter.mp hb).2
  rcases (element_less_eq_false_iff a b).mp hab with h | ⟨_, h⟩
  · omega
  · exact h

/-- In a sorted table the first entry of an id holds the least value of
that id. -/
theorem sorted_find_least {l : List (element_t V)} (hs : TableSorted l) (k : Nat)
    (e : element_t V) (he : l.find? (fun e => decide (e.1 = k)) = some e) :
    ∀ x ∈ l, x.1 = k → e.2 ≤ x.2 := by
  intro x hx hxk
  have hasc := sorted_filter_values hs k
  have hhead : (l.filter (fun e => decide (e.1 = k))).head? = some e := by
    rw [head?_filter_eq_find?, he]
  have hxf : x ∈ l.filter (fun e => decide (e.1 = k)) :=
    List.mem_filter.mpr ⟨hx, by simpa using hxk⟩
  cases hfl : l.filter (fun e => decide (e.1 = k)) with
  | nil => rw [hfl] at hxf; exact absurd hxf (List.not_mem_nil _)
  | cons y rest =>
    rw [hfl] at hhead hasc hxf
    have hy : y = e := by simpa using hhead
    subst hy
    rcases List.mem_cons.mp hxf with rfl | hmem
    · exact le_refl _
    · exact List.rel_of_pairwise_cons hasc (List.mem_map.mpr ⟨x, hmem, rfl⟩)

end order

end cache.detail

/-! ## Further facts about the writer and the packed way id -/

namespace cache

open detail

theorem writes_append {V : Type} (m : file_map_t V) (ws ws' : List (element_t V)) :
    m.writes (ws ++ ws') = (m.writes ws).writes ws' := by
  simp [file_map_t.writes, List.foldl_append]

theorem write_last {V : Type} (m : file_map_t V) (k : Nat) (v : V) :
    (m.write k v).m_memory.getLast? = some (k, v) := by
  rw [write_eq]
  by_cases h : m.m_memory.length > 1024
  · simp [h]
  · simp [h]

/-- The entry of the last write is the last entry of the buffer. -/
theorem writes_last {V : Type} (m : file_map_t V) (ws : List (element_t V)) (hne : ws ≠ []) :
    (m.writes ws).m_memory.getLast? = ws.getLast? := by
  have hsplit := List.dropLast_append_getLast hne
  rw [← hsplit, writes_append]
  simp only [file_map_t.writes, List.foldl_cons, List.foldl_nil]
  rw [write_last, List.getLast?_concat]

/-- The offset table of a writer is written with the entries of its records,
in the order of the records. -/
theorem Writes_offsets_eq {T : Type} (c : Codec T) (ws : List (Nat × T)) :
    ∀ w : DataFileWriter,
    (w.Writes c ws).m_offsets
      = w.m_offsets.writes (DataFileWriter.recordOffsets c w.m_stream.length ws) := by
  induction ws with
  | nil => intro w; rfl
  | cons x ws ih =>
    intro w
    have h := ih (w.Write c x.1 x.2)
    rw [Write_stream, List.length_append] at h
    simpa [DataFileWriter.Writes, DataFileWriter.recordOffsets, file_map_t.writes,
      DataFileWriter.Write, DataFileWriter.Pos] using h

theorem recordOffsets_ne_nil {T : Type} (c : Codec T) (ws : List (Nat × T)) (p : Nat)
    (hne : ws ≠ []) : DataFileWriter.recordOffsets c p ws ≠ [] := by
  intro h
  have := recordOffsets_length c ws p
  rw [h] at this
  exact hne (List.length_eq_zero.mp this.symm)

theorem recordOffsets_last {T : Type} (c : Codec T) (ws : List (Nat × T)) (p : Nat)
    (hne : ws ≠ []) :
    (DataFileWriter.recordOffsets c p ws).getLast?
      = some ((ws.getLast hne).1, p + ((ws.dropLast).map (fun x => (c.put x.2).length)).sum) := by
  have hpos : 0 < ws.length := List.length_pos.mpr hne
  rw [List.getLast?_eq_getElem?, recordOffsets_length,
    recordOffsets_getElem c ws p (ws.length - 1) (by omega),
    List.getLast_eq_getElem, List.dropLast_eq_take]

/-- The recorded offsets never decrease in the order of the writes, and none
is below the position of the first write. -/
theorem recordOffsets_mono {T : Type} (c : Codec T) (ws : List (Nat × T)) :
    ∀ p, (∀ e ∈ DataFileWriter.recordOffsets c p ws, p ≤ e.2) ∧
      (DataFileWriter.recordOffsets c p ws).Pairwise (fun a b => a.2 ≤ b.2) := by
  induction ws with
  | nil => intro p; simp [DataFileWriter.recordOffsets]
  | cons x ws ih =>
    intro p
    obtain ⟨h1, h2⟩ := ih (p + (c.put x.2).length)
    constructor
    · intro e he
      simp only [DataFileWriter.recordOffsets, List.mem_cons] at he
      rcases he with rfl | he
      · exact le_refl _
      · have := h1 e he
        omega
    · simp only [DataFileWriter.recordOffsets, List.pairwise_cons]
      refine ⟨?_, h2⟩
      intro e he
      have := h1 e he
      show p ≤ e.2
      omega

/-- The recorded offsets increase strictly when no record is empty. -/
theorem recordOffsets_strict {T : Type} (c : Codec T) (ws : List (Nat × T)) :
    ∀ p, (∀ x ∈ ws, 0 < (c.put x.2).length) →
      (DataFileWriter.recordOffsets c p ws).Pairwise (fun a b => a.2 < b.2) := by
  induction ws with
  | nil => intro p _; simp [DataFileWriter.recordOffsets]
  | cons x ws ih =>
    intro p hpos
    have hx := hpos x (List.mem_cons_self _ _)
    have h2 := ih (p + (c.put x.2).length) (fun y hy => hpos y (List.mem_cons_of_mem _ hy))
    have h1 := (recordOffsets_mono c ws (p + (c.put x.2).length)).1
    simp only [DataFileWriter.recordOffsets, List.pairwise_cons]
    refine ⟨?_, h2⟩
    intro e he
    have := h1 e he
    show p < e.2
    omega

/-- The first entry of an id in the recorded entries holds the position where
the first record written under that id starts. -/
theorem recordOffsets_first {T : Type} (c : Codec T) (id : Nat) (ws : List (Nat × T)) :
    ∀ p x, ws.find? (fun x => decide (x.1 = id)) = some x →
    ∃ q rest, ((DataFileWriter.recordOffsets c p ws).filter
        (fun e => decide (e.1 = id))).head? = some (id, q) ∧ p ≤ q ∧
      ((ws.map (fun x => c.put x.2)).flatten).drop (q - p) = c.put x.2 ++ rest := by
  induction ws with
  | nil => intro p x h; simp at h
  | cons y ws ih =>
    intro p x h
    by_cases hy : y.1 = id
    · have hx : y = x := by simpa [List.find?_cons, hy] using h
      subst hx
      refine ⟨p, (ws.map (fun x => c.put x.2)).flatten, ?_, le_refl _, by simp⟩
      simp [DataFileWriter.recordOffsets, List.filter_cons, hy]
    · have h' : ws.find? (fun x => decide (x.1 = id)) = some x := by
        simpa [List.find?_cons, hy] using h
      obtain ⟨q, rest, hq, hle, hdrop⟩ := ih (p + (c.put y.2).length) x h'
      refine ⟨q, rest, ?_, by omega, ?_⟩
      · simpa [DataFileWriter.recordOffsets, List.filter_cons, hy] using hq
      · have hsub : q - p = (c.put y.2).length + (q - (p + (c.put y.2).length)) := by omega
        rw [List.map_cons, List.flatten_cons, hsub, ← List.drop_drop, List.drop_left]
        exact hdrop

theorem make_eq (id : Nat) (type : WayType) (h : id < 2 ^ 62) :
    MappedWay.make id type = some { m_id := 4 * id + type.code } := by
  have hchk := (top_bits_zero_iff id (by omega)).mpr h
  simp only [MappedWay.make, CHECK_EQUAL, pack_eq id type.code h type.code_lt]
  rw [if_pos hchk]
  rfl

end cache

/-! ## Further facts about the entry order -/

namespace cache.detail

variable {V : Type} [LinearOrder V]

theorem element_less_iff (a b : element_t V) :
    element_less a b = true ↔ a.1 < b.1 ∨ (a.1 = b.1 ∧ a.2 < b.2) := by
  unfold element_less
  by_cases h : a.1 = b.1
  · simp [h]
  · simp only [h, if_false, decide_eq_true_eq]
    constructor
    · intro h1; exact Or.inl h1
    · rintro (h1 | ⟨h1, _⟩)
      · exact h1
      · exact h1.elim

/-- Entries of one id whose values never decrease are in the table order. -/
theorem filter_sorted_of_mono {l : List (element_t V)}
    (hmono : l.Pairwise (fun a b => a.2 ≤ b.2)) (k : Nat) :
    TableSorted (l.filter (fun e => decide (e.1 = k))) := by
  have hf : (l.filter (fun e => decide (e.1 = k))).Pairwise (fun a b => a.2 ≤ b.2) :=
    List.Pairwise.sublist (List.filter_sublist _) hmono
  refine List.Pairwise.imp_of_mem ?_ hf
  intro a b ha hb hab
  have ha1 : a.1 = k := by simpa using (List.mem_filter.mp ha).2
  have hb1 : b.1 = k := by simpa using (List.mem_filter.mp hb).2
  exact (element_less_eq_false_iff a b).mpr (Or.inr ⟨by omega, hab⟩)

/-- Sorting keeps the entries of an id in their order when that order is
already the table order. -/
theorem sort_filter_eq {l : List (element_t V)} (k : Nat)
    (hs : TableSorted (l.filter (fun e => decide (e.1 = k)))) :
    (sort l).filter (fun e => decide (e.1 = k)) = l.filter (fun e => decide (e.1 = k)) :=
  haveI := element_le_antisymm (V := V)
  List.eq_of_perm_of_sorted ((sort_perm l).filter _)
    (List.Pairwise.sublist (List.filter_sublist _) (sort_sorted l)) hs

/-- A sorted table is the entries below an id, then the entries of the id,
then the entries above it, as the comparisons with a bare id see them. -/
theorem sorted_partition {l : List (element_t V)} (hs : TableSorted l) (k : Nat) :
    l = l.filter (fun e => element_less_key e k)
      ++ l.filter (fun e => !element_less_key e k && !key_less_element k e)
      ++ l.filter (fun e => key_less_element k e) := by
  have hle := sorted_fst_le hs
  clear hs
  induction l with
  | nil => rfl
  | cons x rest ih =>
    rw [List.pairwise_cons] at hle
    have ih := ih hle.2
    have hx := hle.1
    rcases lt_trichotomy x.1 k with h | h | h
    · have h1 : element_less_key x k = true := by simp [element_less_key, h]
      have h3 : key_less_element k x = false := by
        simp only [key_less_element, decide_eq_false_iff_not]; omega
      simp only [List.filter_cons, h1, h3, Bool.not_true, Bool.false_and, Bool.not_false,
        if_true, if_false, List.cons_append]
      exact congrArg (List.cons x) ih
    · have h1 : element_less_key x k = false := by
        simp only [element_less_key, decide_eq_false_iff_not]; omega
      have h3 : key_less_element k x = false := by
        simp only [key_less_element, decide_eq_false_iff_not]; omega
      have hnil : rest.filter (fun e => element_less_key e k) = [] := by
        rw [List.filter_eq_nil_iff]
        intro e he
        have := hx e he
        simp only [element_less_key, decide_eq_true_eq]
        omega
      rw [hnil, List.nil_append] at ih
      simp only [List.filter_cons, h1, h3, hnil, Bool.not_false, Bool.and_self, if_true,
        List.nil_append, List.cons_append]
      simp only [Bool.false_eq_true, if_false]
      exact congrArg (List.cons x) ih
    · have h1 : element_less_key x k = false := by
        simp only [element_less_key, decide_eq_false_iff_not]; omega
      have h3 : key_less_element k x = true := by simp [key_less_element, h]
      have hnil : rest.filter (fun e => element_less_key e k) = [] := by
        rw [List.filter_eq_nil_iff]
        intro e he
        have := hx e he
        simp only [element_less_key, decide_eq_true_eq]
        omega
      have hnil2 : rest.filter
          (fun e => !element_less_key e k && !key_less_element k e) = [] := by
        rw [List.filter_eq_nil_iff]
        intro e he
        have := hx e he
        simp only [element_less_key, key_less_element, Bool.and_eq_true, Bool.not_eq_true',
          decide_eq_false_iff_not, not_and, not_not]
        omega
      rw [hnil, hnil2, List.nil_append, List.nil_append] at ih
      simp only [List.filter_cons, h1, h3, hnil, hnil2, Bool.not_false, Bool.not_true,
        Bool.and_false, if_true, List.nil_append]
      simp only [Bool.false_eq_true, if_false, List.nil_append]
      exact congrArg (List.cons x) ih

end cache.detail

/-! ## The feature map of the editor -/

namespace osm

theorem map_find_set_same {V : Type} (m : List (Nat × V)) (k : Nat) (v : V) :
    map_find (map_set m k v) k = some v := by
  induction m with
  | nil => simp [map_set, map_find]
  | cons p rest ih =>
    obtain ⟨k1, v1⟩ := p
    by_cases h1 : k < k1
    · simp [map_set, map_find, h1]
    · by_cases h2 : k1 = k
      · simp [map_set, map_find, h1, h2]
      · simp [map_set, map_find, h1, h2, ih]

theorem map_find_set_other {V : Type} (m : List (Nat × V)) (k k' : Nat) (v : V)
    (hne : k' ≠ k) : map_find (map_set m k v) k' = map_find m k' := by
  induction m with
  | nil =>
    have : ¬ k = k' := fun h => hne h.symm
    simp [map_set, map_find, this]
  | cons p rest ih =>
    obtain ⟨k1, v1⟩ := p
    have hk : ¬ k = k' := fun h => hne h.symm
    by_cases h1 : k < k1
    · simp [map_set, map_find, h1, hk]
    · by_cases h2 : k1 = k
      · subst h2
        simp [map_set, map_find, hk]
      · simp [map_set, map_find, h1, h2, ih]

/-- The entry of a feature in the feature map, if it has one. -/
theorem GetFeatureStatus_eq (e : Editor) (mwmId index : Nat) :
    e.GetFeatureStatus mwmId index =
      match (map_find e.m_features mwmId).bind (fun inner => map_find inner index) with
      | some fti => fti.m_status
      | none => FeatureStatus.Untouched := by
  unfold Editor.GetFeatureStatus
  cases hm : e.m_features with
  | nil => simp [map_find]
  | cons p rest =>
    cases hf : map_find (p :: rest) mwmId with
    | none => simp
    | some inner =>
      cases hi : map_find inner index <;> simp [hi]

/-- The entries of the feature map after one of them has been assigned. -/
theorem setEntry_find (e : Editor) (fid : FeatureID) (fti : FeatureTypeInfo)
    (mwmId index : Nat) :
    (map_find (e.setEntry fid fti).m_features mwmId).bind (fun inner => map_find inner index)
      = if mwmId = fid.m_mwmId ∧ index = fid.m_index then some fti
        else (map_find e.m_features mwmId).bind (fun inner => map_find inner index) := by
  unfold Editor.setEntry
  by_cases hm : mwmId = fid.m_mwmId
  · subst hm
    rw [map_find_set_same]
    by_cases hi : index = fid.m_index
    · subst hi
      simp [map_find_set_same]
    · simp only [Option.bind, hi, and_false, if_false]
      rw [map_find_set_other _ _ _ _ hi]
      cases hf : map_find e.m_features fid.m_mwmId with
      | none => simp [map_find]
      | some inner => simp
  · rw [map_find_set_other _ _ _ _ hm]
    simp [hm]

theorem setEntry_status_same (e : Editor) (fid : FeatureID) (fti : FeatureTypeInfo) :
    (e.setEntry fid fti).GetFeatureStatus fid.m_mwmId fid.m_index = fti.m_status := by
  rw [GetFeatureStatus_eq, setEntry_find]
  simp

theorem setEntry_status_other (e : Editor) (fid : FeatureID) (fti : FeatureTypeInfo)
    (mwmId index : Nat) (hne : ¬ (mwmId = fid.m_mwmId ∧ index = fid.m_index)) :
    (e.setEntry fid fti).GetFeatureStatus mwmId index = e.GetFeatureStatus mwmId index := by
  rw [GetFeatureStatus_eq, GetFeatureStatus_eq, setEntry_find, if_neg hne]

end osm

/-! ## The upload pass and the set of editable fields -/

namespace osm

/-- What the body of the upload loop does to one feature: only the three
upload fields can change, and they do not change for a feature that is skipped. -/
theorem uploadFeature_frame {W : Type} (env : UploadEnv W) (w : W) (fti : FeatureTypeInfo) :
    (Editor.uploadFeature env w fti).1.m_status = fti.m_status ∧
    (Editor.uploadFeature env w fti).1.m_feature = fti.m_feature ∧
    (Editor.uploadFeature env w fti).1.m_street = fti.m_street ∧
    (Editor.uploadFeature env w fti).1.m_modificationTimestamp = fti.m_modificationTimestamp ∧
    ((fti.m_uploadStatus ≠ "" ∧ fti.m_uploadStatus ≠ kNeedsRetry) →
      Editor.uploadFeature env w fti = (fti, w)) ∧
    (fti.m_status ≠ FeatureStatus.Modified → Editor.uploadFeature env w fti = (fti, w)) ∧
    ((Editor.uploadFeature env w fti).1.m_uploadStatus ≠ fti.m_uploadStatus →
      (Editor.uploadFeature env w fti).1.m_uploadStatus = kUploaded ∨
      (Editor.uploadFeature env w fti).1.m_uploadStatus = kDeletedFromOSMServer ∨
      (Editor.uploadFeature env w fti).1.m_uploadStatus = kNeedsRetry) := by
  unfold Editor.uploadFeature
  by_cases h1 : (!(fti.m_uploadStatus.isEmpty || fti.m_uploadStatus == kNeedsRetry)) = true
  · simp only [h1, if_true]
    simp
  · have hE : fti.m_uploadStatus.isEmpty = true ↔ fti.m_uploadStatus = "" :=
      String.isEmpty_iff _
    have h1' : fti.m_uploadStatus = "" ∨ fti.m_uploadStatus = kNeedsRetry := by
      by_contra hcon
      rw [not_or] at hcon
      apply h1
      have hne : fti.m_uploadStatus.isEmpty = false := by
        cases h : fti.m_uploadStatus.isEmpty with
        | false => rfl
        | true => exact absurd (hE.mp h) hcon.1
      simp [hne, hcon.2]
    by_cases h2 : (fti.m_status != FeatureStatus.Modified) = true
    · simp only [h1, h2, if_true, if_false]
      simp
    · have h2' : fti.m_status = FeatureStatus.Modified := by simpa using h2
      have hskip : ¬ (fti.m_uploadStatus ≠ "" ∧ fti.m_uploadStatus ≠ kNeedsRetry) := by
        rintro ⟨ha, hb⟩
        rcases h1' with h | h
        · exact ha h
        · exact hb h
      by_cases h3 : (!env.isNode fti.m_feature) = true
      · simp only [h1, h2, h3, if_true, if_false]
        simp
      · simp only [h1, h2, h3, if_false]
        cases hatt : env.attempt w fti with
        | mk outcome w1 =>
          cases outcome <;> simp [hskip, h2']

theorem uploadIndices_forall2 {W : Type} (env : UploadEnv W)
    (R : FeatureTypeInfo → FeatureTypeInfo → Prop)
    (hR : ∀ w fti, R fti (Editor.uploadFeature env w fti).1) :
    ∀ (l : List (Nat × FeatureTypeInfo)) (w : W),
      List.Forall₂ (fun x y => x.1 = y.1 ∧ R x.2 y.2) l (Editor.uploadIndices env w l).1 := by
  intro l
  induction l with
  | nil => intro w; exact List.Forall₂.nil
  | cons p rest ih =>
    intro w
    obtain ⟨index, fti⟩ := p
    exact List.Forall₂.cons ⟨rfl, hR w fti⟩ (ih _)

theorem uploadMwms_forall2 {W : Type} (env : UploadEnv W)
    (R : FeatureTypeInfo → FeatureTypeInfo → Prop)
    (hR : ∀ w fti, R fti (Editor.uploadFeature env w fti).1) :
    ∀ (l : List (MwmId × List (Nat × FeatureTypeInfo))) (w : W),
      List.Forall₂
        (fun a b => a.1 = b.1 ∧ List.Forall₂ (fun x y => x.1 = y.1 ∧ R x.2 y.2) a.2 b.2)
        l (Editor.uploadMwms env w l).1 := by
  intro l
  induction l with
  | nil => intro w; exact List.Forall₂.nil
  | cons p rest ih =>
    intro w
    obtain ⟨id, indices⟩ := p
    exact List.Forall₂.cons ⟨rfl, uploadIndices_forall2 env R hR indices w⟩ (ih _)

/-- Two maps with the same keys in the same places answer `find` alike. -/
theorem map_find_forall2 {V : Type} (R : V → V → Prop) {l l' : List (Nat × V)}
    (h : List.Forall₂ (fun a b => a.1 = b.1 ∧ R a.2 b.2) l l') (k : Nat) :
    (map_find l k = none ∧ map_find l' k = none) ∨
    ∃ x y, map_find l k = some x ∧ map_find l' k = some y ∧ R x y := by
  induction h with
  | nil => exact Or.inl ⟨rfl, rfl⟩
  | @cons a b rest rest' hab _ ih =>
    obtain ⟨k1, v1⟩ := a
    obtain ⟨k2, v2⟩ := b
    obtain ⟨hk, hr⟩ := hab
    simp only at hk hr
    subst hk
    by_cases hkk : k1 = k
    · exact Or.inr ⟨v1, v2, by simp [map_find, hkk], by simp [map_find, hkk], hr⟩
    · simpa [map_find, hkk] using ih

theorem set_insert_mem_imp (code : EType → Nat) (s : List EType) (x z : EType)
    (h : z ∈ set_insert code s x) : z = x ∨ z ∈ s := by
  induction s with
  | nil => simpa [set_insert] using h
  | cons y rest ih =>
    unfold set_insert at h
    by_cases h1 : code x < code y
    · simp only [h1, if_true, List.mem_cons] at h
      rcases h with h | h | h
      · exact Or.inl h
      · exact Or.inr (by simp [h])
      · exact Or.inr (by simp [h])
    · by_cases h2 : code y < code x
      · simp only [h1, h2, if_true, if_false, List.mem_cons] at h
        rcases h with h | h
        · exact Or.inr (by simp [h])
        · rcases ih h with h | h
          · exact Or.inl h
          · exact Or.inr (by simp [h])
      · simp only [h1, h2, if_false] at h
        exact Or.inr h

theorem set_insert_mem (code : EType → Nat) (hinj : Function.Injective code)
    (s : List EType) (x z : EType) : z ∈ set_insert code s x ↔ z = x ∨ z ∈ s := by
  refine ⟨set_insert_mem_imp code s x z, ?_⟩
  induction s with
  | nil => intro h; simpa [set_insert] using h
  | cons y rest ih =>
    intro h
    unfold set_insert
    by_cases h1 : code x < code y
    · simp only [h1, if_true, List.mem_cons]
      rcases h with h | h
      · exact Or.inl h
      · exact Or.inr (List.mem_cons.mp h)
    · by_cases h2 : code y < code x
      · simp only [h1, h2, if_true, if_false, List.mem_cons]
        rcases h with h | h
        · exact Or.inr (ih (Or.inl h))
        · rcases List.mem_cons.mp h with h | h
          · exact Or.inl h
          · exact Or.inr (ih (Or.inr h))
      · simp only [h1, h2, if_false]
        rcases h with h | h
        · have : x = y := hinj (by omega)
          rw [h, this]
          exact List.mem_cons_self _ _
        · exact h

/-- The set stays in strictly ascending order of the numeric values. -/
theorem set_insert_sorted (code : EType → Nat) (s : List EType) (x : EType)
    (hs : s.Pairwise (fun a b => code a < code b)) :
    (set_insert code s x).Pairwise (fun a b => code a < code b) := by
  induction s with
  | nil => simp [set_insert]
  | cons y rest ih =>
    rw [List.pairwise_cons] at hs
    unfold set_insert
    by_cases h1 : code x < code y
    · simp only [h1, if_true]
      refine List.Pairwise.cons ?_ (List.Pairwise.cons hs.1 hs.2)
      intro z hz
      rcases List.mem_cons.mp hz with h | h
      · rw [h]; exact h1
      · exact lt_trans h1 (hs.1 z h)
    · by_cases h2 : code y < code x
      · simp only [h1, h2, if_true, if_false]
        refine List.Pairwise.cons ?_ (ih hs.2)
        intro z hz
        rcases set_insert_mem_imp code rest x z hz with h | h
        · rw [h]; exact h2
        · exact hs.1 z h
      · simp only [h1, h2, if_false]
        exact List.Pairwise.cons hs.1 hs.2

theorem foldl_set_insert_sorted (code : EType → Nat) (xs : List EType) :
    ∀ s : List EType, s.Pairwise (fun a b => code a < code b) →
      (xs.foldl (set_insert code) s).Pairwise (fun a b => code a < code b) := by
  induction xs with
  | nil => intro s hs; exact hs
  | cons x xs ih => intro s hs; exact ih _ (set_insert_sorted code s x hs)

theorem foldl_set_insert_mem (code : EType → Nat) (hinj : Function.Injective code)
    (xs : List EType) : ∀ (s : List EType) (z : EType),
      z ∈ xs.foldl (set_insert code) s ↔ z ∈ xs ∨ z ∈ s := by
  induction xs with
  | nil => intro s z; simp
  | cons x xs ih =>
    intro s z
    rw [List.foldl_cons, ih, set_insert_mem code hinj, List.mem_cons]
    tauto

end osm

namespace osm

theorem addEditableFields_sorted (code : EType → Nat) (readableName : Nat → String)
    (fields : List EType) (type : Nat)
    (hs : fields.Pairwise (fun a b => code a < code b)) :
    (addEditableFields code readableName fields type).Pairwise
      (fun a b => code a < code b) := by
  unfold addEditableFields
  cases hd : GetTypeDescription readableName type with
  | none => exact hs
  | some desc =>
    have h1 := foldl_set_insert_sorted code desc.fields fields hs
    cases ha : desc.address with
    | false => simpa [ha] using h1
    | true =>
      simp only [ha, if_true]
      exact foldl_set_insert_sorted code _ _ h1

theorem addEditableFields_mem (code : EType → Nat) (hinj : Function.Injective code)
    (readableName : Nat → String) (fields : List EType) (type : Nat) (z : EType) :
    z ∈ addEditableFields code readableName fields type ↔
      z ∈ fields ∨ ∃ d, GetTypeDescription readableName type = some d ∧
        (z ∈ d.fields ∨ (d.address = true ∧
          z ∈ [EType.FMD_EMAIL, EType.FMD_OPEN_HOURS, EType.FMD_PHONE_NUMBER,
            EType.FMD_POSTCODE, EType.FMD_WEBSITE])) := by
  unfold addEditableFields
  cases hd : GetTypeDescription readableName type with
  | none => simp
  | some desc =>
    cases ha : desc.address with
    | false =>
      simp only [ha, if_false, Bool.false_eq_true, false_and, or_false, Option.some.injEq,
        exists_eq_left']
      rw [foldl_set_insert_mem code hinj]
      tauto
    | true =>
      simp only [ha, if_true, true_and, Option.some.injEq, exists_eq_left']
      rw [foldl_set_insert_mem code hinj, foldl_set_insert_mem code hinj]
      tauto

theorem foldl_addEditableFields_sorted (code : EType → Nat) (readableName : Nat → String)
    (types : List Nat) : ∀ fields : List EType,
      fields.Pairwise (fun a b => code a < code b) →
      (types.foldl (addEditableFields code readableName) fields).Pairwise
        (fun a b => code a < code b) := by
  induction types with
  | nil => intro fields hs; exact hs
  | cons t types ih =>
    intro fields hs
    exact ih _ (addEditableFields_sorted code readableName fields t hs)

theorem foldl_addEditableFields_mem (code : EType → Nat) (hinj : Function.Injective code)
    (readableName : Nat → String) (types : List Nat) : ∀ (fields : List EType) (z : EType),
      z ∈ types.foldl (addEditableFields code readableName) fields ↔
        z ∈ fields ∨ ∃ t ∈ types, ∃ d, GetTypeDescription readableName t = some d ∧
          (z ∈ d.fields ∨ (d.address = true ∧
            z ∈ [EType.FMD_EMAIL, EType.FMD_OPEN_HOURS, EType.FMD_PHONE_NUMBER,
              EType.FMD_POSTCODE, EType.FMD_WEBSITE])) := by
  induction types with
  | nil => intro fields z; simp
  | cons t types ih =>
    intro fields z
    rw [List.foldl_cons, ih, addEditableFields_mem code hinj]
    constructor
    · rintro ((h | ⟨d, hd, h⟩) | ⟨t', ht', d, hd, h⟩)
      · exact Or.inl h
      · exact Or.inr ⟨t, List.mem_cons_self _ _, d, hd, h⟩
      · exact Or.inr ⟨t', List.mem_cons_of_mem _ ht', d, hd, h⟩
    · rintro (h | ⟨t', ht', d, hd, h⟩)
      · exact Or.inl (Or.inl h)
      · rcases List.mem_cons.mp ht' with rfl | ht'
        · exact Or.inl (Or.inr ⟨d, hd, h⟩)
        · exact Or.inr ⟨t', ht', d, hd, h⟩

/-- What holds of every feature before and after the body of the upload loop
holds of the entry a map file and an index select before and after the pass. -/
theorem UploadChanges_find {W : Type} (env : UploadEnv W) (w : W) (e : Editor)
    (R : FeatureTypeInfo → FeatureTypeInfo → Prop)
    (hR : ∀ w fti, R fti (Editor.uploadFeature env w fti).1) (mwmId index : Nat)
    (x : FeatureTypeInfo)
    (hx : (map_find e.m_features mwmId).bind (fun inner => map_find inner index) = some x) :
    ∃ y, (map_find (e.UploadChanges env w).1.m_features mwmId).bind
        (fun inner => map_find inner index) = some y ∧ R x y := by
  have hall := uploadMwms_forall2 env R hR e.m_features w
  rcases map_find_forall2
      (fun (a b : List (Nat × FeatureTypeInfo)) =>
        List.Forall₂ (fun x y => x.1 = y.1 ∧ R x.2 y.2) a b) hall mwmId with
    ⟨h1, _⟩ | ⟨inner, inner', h1, h2, hin⟩
  · rw [h1] at hx; simp at hx
  · rw [h1] at hx
    simp only [Option.bind] at hx
    rcases map_find_forall2 R hin index with ⟨h3, _⟩ | ⟨x', y, h3, h4, hxy⟩
    · rw [h3] at hx; simp at hx
    · rw [h3] at hx
      have hx' : x' = x := by simpa using hx
      subst hx'
      refine ⟨y, ?_, hxy⟩
      show (map_find (Editor.uploadMwms env w e.m_features).1 mwmId).bind
        (fun inner => map_find inner index) = some y
      rw [h2]
      simpa [Option.bind] using h4

theorem toCtorIdx_injective : Function.Injective EType.toCtorIdx := by
  intro a b h
  cases a <;> cases b <;> first | rfl | cases h

end osm

/-! ## The properties of the cache -/

namespace cache

open detail

/-- Claim C1: after any writes with pairwise distinct ids through a fresh
`DataFileWriter` and `SaveOffsets`, a fresh `DataFileReader` over the two
files loads its offsets, and `Read` of every written id returns `true` with
the record written under that id, wherever the read cursor was left, given
that the record type decodes what it encoded from any stream position. -/
theorem C1_keyed_store_round_trip {T : Type} (c : Codec T) (ws : List (Nat × T))
    (hcodec : ∀ t rest, (c.get (c.put t ++ rest)).1 = t)
    (hids : (ws.map Prod.fst).Nodup)
    (hsize : sizeof_element_t * ws.length < 2 ^ 64) :
    ∃ r, (DataFileReader.init (DataFileWriter.init.Writes c ws).SaveOffsets.m_stream
            (DataFileWriter.init.Writes c ws).SaveOffsets.m_offsets.m_file).LoadOffsets = some r ∧
      ∀ id t, (id, t) ∈ ws → ∀ (pos : Nat) (t0 : T),
        (DataFileReader.Read c { r with m_pos := pos } id t0).1 = true ∧
        (DataFileReader.Read c { r with m_pos := pos } id t0).2.1 = t := by
  have hstream : (DataFileWriter.init.Writes c ws).SaveOffsets.m_stream
      = (ws.map (fun x => c.put x.2)).flatten := by
    have := Writes_stream c ws DataFileWriter.init
    simpa [DataFileWriter.SaveOffsets, DataFileWriter.init] using this
  have hfile : (DataFileWriter.init.Writes c ws).SaveOffsets.m_offsets.m_file
      = DataFileWriter.recordOffsets c 0 ws := by
    have := Writes_offsets c ws DataFileWriter.init
    simp only [DataFileWriter.SaveOffsets, flush_to_file_file]
    simpa [DataFileWriter.init, file_map_t.init] using this
  rw [hstream, hfile]
  have hload : file_map_t.read_to_memory (file_map_t.init (DataFileWriter.recordOffsets c 0 ws))
      = some { m_memory := sort (DataFileWriter.recordOffsets c 0 ws),
               m_file := DataFileWriter.recordOffsets c 0 ws } :=
    read_to_memory_eq (file_map_t.init (DataFileWriter.recordOffsets c 0 ws))
      (by simpa [file_map_t.init, recordOffsets_length] using hsize)
  refine ⟨{ m_stream := (ws.map (fun x => c.put x.2)).flatten, m_pos := 0,
            m_offsets := { m_memory := sort (DataFileWriter.recordOffsets c 0 ws),
                           m_file := DataFileWriter.recordOffsets c 0 ws } }, ?_, ?_⟩
  · simp only [DataFileReader.LoadOffsets, DataFileReader.init, hload]
  intro id t hmem pos t0
  have hid : id ∈ (DataFileWriter.recordOffsets c 0 ws).map Prod.fst := by
    rw [recordOffsets_ids]
    exact List.mem_map.mpr ⟨(id, t), hmem, rfl⟩
  obtain ⟨v, hv, hvmem⟩ := read_one_sort_found (DataFileWriter.recordOffsets c 0 ws)
    (DataFileWriter.recordOffsets c 0 ws) id 0 hid
  obtain ⟨t', rest, ht', _, hdrop⟩ := recordOffsets_start c ws 0 (id, v) hvmem
  have htt : t' = t := nodup_fst_unique hids ht' hmem
  subst htt
  simp only [Nat.sub_zero] at hdrop
  simp [DataFileReader.Read, hv, hdrop, hcodec]

/-- The round trip of three byte-string records, one of them empty. -/
theorem C1_keyed_store_round_trip_witness :
    ∃ r, (DataFileReader.init
            (DataFileWriter.init.Writes stringCodec [(7, [1, 2]), (5, []), (9, [3])]).SaveOffsets.m_stream
            (DataFileWriter.init.Writes stringCodec
              [(7, [1, 2]), (5, []), (9, [3])]).SaveOffsets.m_offsets.m_file).LoadOffsets = some r ∧
      ∀ id t, (id, t) ∈ [(7, [1, 2]), (5, []), (9, [3])] → ∀ (pos : Nat) (t0 : List Byte),
        (DataFileReader.Read stringCodec { r with m_pos := pos } id t0).1 = true ∧
        (DataFileReader.Read stringCodec { r with m_pos := pos } id t0).2.1 = t :=
  C1_keyed_store_round_trip stringCodec [(7, [1, 2]), (5, []), (9, [3])]
    stringCodec_get_put (by decide) (by decide)

/-- Claim C2: after any writes on a fresh `file_map_t` and `flush_to_file`, a
table that loads the resulting file with `read_to_memory` finds every written
id, with a value written under that id, and finds no id never written. -/
theorem C2_read_one_after_reload {V : Type} [LinearOrder V] (ws mem0 : List (element_t V))
    (hsize : sizeof_element_t * ws.length < 2 ^ 64) :
    ∃ r, file_map_t.read_to_memory
          { m_memory := mem0, m_file := ((file_map_t.init []).writes ws).flush_to_file.m_file }
        = some r ∧
      (∀ id v0, id ∈ ws.map Prod.fst → ∃ v, r.read_one id v0 = (true, v) ∧ (id, v) ∈ ws) ∧
      (∀ id v0, id ∉ ws.map Prod.fst → r.read_one id v0 = (false, v0)) :=
  ⟨_, reload_eq ws mem0 hsize,
    fun id v0 h => read_one_sort_found ws ws id v0 h,
    fun id v0 h => read_one_sort_missing ws ws id v0 h⟩

/-- The lookup after a reload of three writes, two of them under one id. -/
theorem C2_read_one_after_reload_witness :
    ∃ r, file_map_t.read_to_memory
          { m_memory := [(9, 9)],
            m_file := ((file_map_t.init []).writes
              [(5, 10), (5, 3), (7, 1)]).flush_to_file.m_file }
        = some r ∧
      (∀ id v0, id ∈ [(5, 10), (5, 3), (7, 1)].map Prod.fst →
        ∃ v, r.read_one id v0 = (true, v) ∧ (id, v) ∈ [(5, 10), (5, 3), (7, 1)]) ∧
      (∀ id v0, id ∉ [(5, 10), (5, 3), (7, 1)].map Prod.fst → r.read_one id v0 = (false, v0)) :=
  C2_read_one_after_reload (V := Nat) [(5, 10), (5, 3), (7, 1)] [(9, 9)] (by decide)

/-- Claim C3: after any writes on a fresh `file_map_t`, `flush_to_file` and
`read_to_memory`, the values in `GetRange id` are a rearrangement of the values
written under `id` (each as often as it was written) in ascending order, a
visitor that never stops is called by `for_each_ret` on exactly these values in
this order, and the range of an id never written is empty. -/
theorem C3_range_after_reload {V : Type} [LinearOrder V] (ws mem0 : List (element_t V))
    (hsize : sizeof_element_t * ws.length < 2 ^ 64) :
    ∃ r, file_map_t.read_to_memory
          { m_memory := mem0, m_file := ((file_map_t.init []).writes ws).flush_to_file.m_file }
        = some r ∧
      ∀ id,
        ((r.rangeElements (r.GetRange id)).map Prod.snd).Perm
          ((ws.filter (fun e => decide (e.1 = id))).map Prod.snd) ∧
        ((r.rangeElements (r.GetRange id)).map Prod.snd).Pairwise (fun a b => a ≤ b) ∧
        (∀ e ∈ r.rangeElements (r.GetRange id), e.1 = id) ∧
        r.for_each_ret id (fun s v => (s ++ [v], false)) []
          = (r.rangeElements (r.GetRange id)).map Prod.snd ∧
        (∀ (S : Type) (toDo : S → V → S × Bool) (s : S), (∀ s v, (toDo s v).2 = false) →
          r.for_each_ret id toDo s
            = ((r.rangeElements (r.GetRange id)).map Prod.snd).foldl
                (fun s v => (toDo s v).1) s) ∧
        (id ∉ ws.map Prod.fst →
          (r.GetRange id).1 = (r.GetRange id).2 ∧ r.rangeElements (r.GetRange id) = []) := by
  refine ⟨_, reload_eq ws mem0 hsize, ?_⟩
  intro id
  have hrange : file_map_t.rangeElements { m_memory := sort ws, m_file := ws }
      (file_map_t.GetRange { m_memory := sort ws, m_file := ws } id)
      = (sort ws).filter (fun e => decide (e.1 = id)) :=
    range_eq_filter (sort_sorted ws) id
  rw [hrange]
  obtain ⟨hperm, hasc⟩ := filter_sort ws id
  refine ⟨hperm, hasc, ?_, ?_, ?_, ?_⟩
  · intro e he
    simpa using (List.mem_filter.mp he).2
  · unfold file_map_t.for_each_ret
    rw [hrange, for_each_loop_never _ (fun _ _ => rfl), foldl_log]
    simp
  · intro S toDo s hnever
    unfold file_map_t.for_each_ret
    rw [hrange, for_each_loop_never _ hnever]
  · intro hid
    have hnil : (sort ws).filter (fun e => decide (e.1 = id)) = [] := by
      rw [List.filter_eq_nil_iff]
      intro x hx hxk
      exact hid (List.mem_map.mpr ⟨x, (sort_perm ws).mem_iff.mp hx, by simpa using hxk⟩)
    have hlen := range_length (sort_sorted ws) id
    rw [hnil] at hlen
    exact ⟨by simpa [file_map_t.GetRange, equal_range] using hlen, hnil⟩

/-- The range of an id written three times, twice with the same value. -/
theorem C3_range_after_reload_witness :
    ∃ r, file_map_t.read_to_memory
          { m_memory := [(9, 9)],
            m_file := ((file_map_t.init []).writes
              [(5, 10), (5, 3), (7, 1), (5, 3)]).flush_to_file.m_file }
        = some r ∧
      ((r.rangeElements (r.GetRange 5)).map Prod.snd).Perm [10, 3, 3] ∧
      ((r.rangeElements (r.GetRange 5)).map Prod.snd).Pairwise (fun a b => a ≤ b) := by
  obtain ⟨r, hr, h⟩ :=
    C3_range_after_reload (V := Nat) [(5, 10), (5, 3), (7, 1), (5, 3)] [(9, 9)] (by decide)
  exact ⟨r, hr, (h 5).1, (h 5).2.1⟩

/-- Claim C4, refuted as stated: the 1025 writes `(0,0), ..., (1024,1024)` on a
fresh table with no `flush_to_file` leave the file empty, so a table that
loads the file finds neither the id `0` nor any value in its range. -/
theorem C4_threshold_counterexample :
    ((0, 0) : element_t Nat) ∈ (List.range 1025).map (fun i => (i, i)) ∧
    ((List.range 1025).map (fun i => ((i, i) : element_t Nat))).length = s_max_count + 1 ∧
    ∃ r, file_map_t.read_to_memory (file_map_t.init
          ((file_map_t.init []).writes
            ((List.range 1025).map (fun i => ((i, i) : element_t Nat)))).m_file) = some r ∧
      r.read_one 0 7 = (false, 7) ∧ r.rangeElements (r.GetRange 0) = [] := by
  have hw := writes_no_flush ((List.range 1025).map (fun i => ((i, i) : element_t Nat)))
    (file_map_t.init []) (by simp [file_map_t.init, s_max_count])
  refine ⟨List.mem_map.mpr ⟨0, List.mem_range.mpr (by omega), rfl⟩,
    by simp [s_max_count], ?_⟩
  rw [hw]
  exact ⟨{ m_memory := [], m_file := [] }, by decide, by decide, by decide⟩

/-- Claim C4, amended: 1025 writes on a fresh table trigger no flush, so
without `flush_to_file` all entries are still in the buffer, the file is empty
and a table that loads it finds nothing; after an explicit `flush_to_file` a
table that loads the file finds every written id and every written entry in
the range of its id. -/
theorem C4_threshold_amended {V : Type} [LinearOrder V] (ws : List (element_t V))
    (hlen : ws.length = s_max_count + 1) :
    (file_map_t.init []).writes ws = { m_memory := ws, m_file := [] } ∧
    (∃ r, file_map_t.read_to_memory
          (file_map_t.init ((file_map_t.init []).writes ws).m_file) = some r ∧
      ∀ id v0, r.read_one id v0 = (false, v0) ∧ r.rangeElements (r.GetRange id) = []) ∧
    (∃ r, file_map_t.read_to_memory
          (file_map_t.init ((file_map_t.init []).writes ws).flush_to_file.m_file) = some r ∧
      ∀ e ∈ ws, (∀ v0, ∃ v, r.read_one e.1 v0 = (true, v) ∧ (e.1, v) ∈ ws) ∧
        e ∈ r.rangeElements (r.GetRange e.1)) := by
  have hw := writes_no_flush ws (file_map_t.init []) (by simp [file_map_t.init, hlen])
  have hw2 : (file_map_t.init []).writes ws = { m_memory := ws, m_file := [] } := by
    simpa [file_map_t.init] using hw
  have hsize : sizeof_element_t * ws.length < 2 ^ 64 := by
    rw [hlen]; decide
  refine ⟨hw2, ?_, ?_⟩
  · refine ⟨{ m_memory := [], m_file := [] }, ?_, ?_⟩
    · rw [hw2]
      simp [file_map_t.read_to_memory, file_map_t.init]
    · intro id v0
      simp [file_map_t.read_one, file_map_t.rangeElements, lower_bound, bound_loop]
  · refine ⟨_, reload_eq ws [] hsize, ?_⟩
    intro e he
    refine ⟨fun v0 => read_one_sort_found ws ws e.1 v0 (List.mem_map.mpr ⟨e, he, rfl⟩), ?_⟩
    have hrange : file_map_t.rangeElements { m_memory := sort ws, m_file := ws }
        (file_map_t.GetRange { m_memory := sort ws, m_file := ws } e.1)
        = (sort ws).filter (fun x => decide (x.1 = e.1)) :=
      range_eq_filter (sort_sorted ws) e.1
    rw [hrange]
    exact List.mem_filter.mpr ⟨(sort_perm ws).mem_iff.mpr he, by simp⟩

/-- The buffer after the 1025 writes `(0,0), ..., (1024,1024)`. -/
theorem C4_threshold_amended_witness :
    (file_map_t.init []).writes ((List.range 1025).map (fun i => ((i, i) : element_t Nat)))
      = { m_memory := (List.range 1025).map (fun i => (i, i)), m_file := [] } :=
  (C4_threshold_amended ((List.range 1025).map (fun i => ((i, i) : element_t Nat)))
    (by simp [s_max_count])).1

/-- Claim C5: for every way id below `2 ^ 62` and every way type the
constructor succeeds, the word held is `(wayId << 2) | type`, a 64-bit value,
and `GetId` and `GetType` return the way id and the type. -/
theorem C5_mapped_way_round_trip (wayId : Nat) (type : WayType) (h : wayId < 2 ^ 62) :
    ∃ w, MappedWay.make wayId type = some w ∧
      w.m_id = (wayId <<< 2) ||| type.code ∧ w.m_id < 2 ^ 64 ∧
      w.GetId = wayId ∧ w.GetType = type := by
  have hpack := pack_eq wayId type.code h type.code_lt
  have hshift : wayId <<< 2 % 2 ^ 64 = wayId <<< 2 := by
    rw [Nat.shiftLeft_eq]
    exact Nat.mod_eq_of_lt (by omega)
  have hcode := type.code_lt
  refine ⟨{ m_id := 4 * wayId + type.code }, ?_, ?_, ?_, ?_, ?_⟩
  · have hchk := (top_bits_zero_iff wayId (by omega)).mpr h
    simp only [MappedWay.make, CHECK_EQUAL, hpack]
    rw [if_pos hchk]
    rfl
  · show 4 * wayId + type.code = wayId <<< 2 ||| type.code
    rw [← hpack, hshift]
  · show 4 * wayId + type.code < 2 ^ 64
    omega
  · show (4 * wayId + type.code) >>> 2 = wayId
    rw [Nat.shiftRight_eq_div_pow]
    omega
  · show WayType.static_cast ((4 * wayId + type.code) &&& 3) = type
    have h3 : (4 * wayId + type.code) &&& 3 = type.code := by
      have := Nat.and_pow_two_sub_one_eq_mod (4 * wayId + type.code) 2
      simp only [Nat.reducePow, Nat.add_one_sub_one] at this
      rw [this]
      omega
    rw [h3, WayType.static_cast_code]

/-- The largest way id that can be packed. -/
theorem C5_mapped_way_round_trip_witness :
    ∃ w, MappedWay.make (2 ^ 62 - 1) WayType.coast_opposite = some w ∧
      w.m_id = ((2 ^ 62 - 1) <<< 2) ||| WayType.coast_opposite.code ∧ w.m_id < 2 ^ 64 ∧
      w.GetId = 2 ^ 62 - 1 ∧ w.GetType = WayType.coast_opposite :=
  C5_mapped_way_round_trip (2 ^ 62 - 1) WayType.coast_opposite (by decide)

/-- Claim C6: on a 64-bit id the constructor of `MappedWay` fails, producing no
value, exactly when the id is at least `2 ^ 62`, which is when bit 62 or bit 63
of the id is set. -/
theorem C6_mapped_way_rejects_oversized (id : Nat) (type : WayType) (h : id < 2 ^ 64) :
    (MappedWay.make id type = none ↔ 2 ^ 62 ≤ id) ∧
    (2 ^ 62 ≤ id ↔ (id.testBit 62 || id.testBit 63) = true) := by
  constructor
  · unfold MappedWay.make CHECK_EQUAL
    by_cases hlt : id < 2 ^ 62
    · rw [if_pos ((top_bits_zero_iff id h).mpr hlt)]
      simp
      omega
    · rw [if_neg (fun hc => hlt ((top_bits_zero_iff id h).mp hc))]
      simp
      omega
  · constructor
    · intro hge
      by_contra hb
      simp only [Bool.or_eq_true, not_or, Bool.not_eq_true] at hb
      have : id < 2 ^ 62 := by
        apply Nat.lt_pow_two_of_testBit
        intro i hi
        by_cases h64 : 64 ≤ i
        · exact Nat.testBit_lt_two_pow (lt_of_lt_of_le h (Nat.pow_le_pow_right (by omega) h64))
        · have : i = 62 ∨ i = 63 := by omega
          rcases this with rfl | rfl
          · exact hb.1
          · exact hb.2
      omega
    · intro hb
      by_contra hlt
      have hlt : id < 2 ^ 62 := by omega
      have h62 := Nat.testBit_lt_two_pow hlt
      have h63 : id.testBit 63 = false :=
        Nat.testBit_lt_two_pow (lt_of_lt_of_le hlt (by norm_num))
      rw [h62, h63] at hb
      exact absurd hb (by decide)

/-- The smallest way id that is rejected. -/
theorem C6_mapped_way_rejects_oversized_witness :
    (MappedWay.make (2 ^ 62) WayType.empty_direct = none ↔ 2 ^ 62 ≤ 2 ^ 62) ∧
    (2 ^ 62 ≤ 2 ^ 62 ↔ (Nat.testBit (2 ^ 62) 62 || Nat.testBit (2 ^ 62) 63) = true) :=
  C6_mapped_way_rejects_oversized (2 ^ 62) WayType.empty_direct (by decide)

/-- Claim C7: `Write` hands `(id, Pos())` to the offset table, where it becomes
the last recorded entry, and then appends the serialised record to the stream;
so after any writes on a fresh writer the stream is the concatenation of the
records, and the entry recorded by the write at position `i` holds the id of
that write and the total length of the records before it, the position where
its record starts in the stream. -/
theorem C7_write_records_position {T : Type} (c : Codec T) (w : DataFileWriter)
    (id : Nat) (t : T) (ws : List (Nat × T)) :
    ((w.Write c id t).m_stream = w.m_stream ++ c.put t ∧
      (w.Write c id t).m_offsets = w.m_offsets.write id w.Pos ∧
      (w.Write c id t).m_offsets.m_file ++ (w.Write c id t).m_offsets.m_memory
        = w.m_offsets.m_file ++ w.m_offsets.m_memory ++ [(id, w.Pos)]) ∧
    ((DataFileWriter.init.Writes c ws).m_stream = (ws.map (fun x => c.put x.2)).flatten ∧
      ((DataFileWriter.init.Writes c ws).m_offsets.m_file
        ++ (DataFileWriter.init.Writes c ws).m_offsets.m_memory).length = ws.length ∧
      ∀ i (h : i < ws.length),
        ((DataFileWriter.init.Writes c ws).m_offsets.m_file
          ++ (DataFileWriter.init.Writes c ws).m_offsets.m_memory)[i]?
          = some (ws[i].1, ((ws.take i).map (fun x => (c.put x.2).length)).sum) ∧
        (DataFileWriter.init.Writes c ws).m_stream.drop
            (((ws.take i).map (fun x => (c.put x.2).length)).sum)
          = c.put ws[i].2 ++ ((ws.drop (i + 1)).map (fun x => c.put x.2)).flatten) := by
  have hstream : (DataFileWriter.init.Writes c ws).m_stream
      = (ws.map (fun x => c.put x.2)).flatten := by
    have := Writes_stream c ws DataFileWriter.init
    simpa [DataFileWriter.init] using this
  have hentries : (DataFileWriter.init.Writes c ws).m_offsets.m_file
      ++ (DataFileWriter.init.Writes c ws).m_offsets.m_memory
      = DataFileWriter.recordOffsets c 0 ws := by
    have := Writes_offsets c ws DataFileWriter.init
    simpa [DataFileWriter.init, file_map_t.init] using this
  refine ⟨⟨rfl, rfl, Write_offsets c w id t⟩, hstream, ?_, ?_⟩
  · rw [hentries, recordOffsets_length]
  · intro i h
    rw [hentries, hstream, recordOffsets_getElem c ws 0 i h, Nat.zero_add]
    exact ⟨rfl, stream_drop_offset c ws i h⟩

/-- The second of three records starts after the three bytes of the first. -/
theorem C7_write_records_position_witness :
    ((DataFileWriter.init.Writes stringCodec [(7, [1, 2]), (5, []), (9, [3])]).m_offsets.m_file
      ++ (DataFileWriter.init.Writes stringCodec
          [(7, [1, 2]), (5, []), (9, [3])]).m_offsets.m_memory)[1]? = some (5, 3) := by
  simpa [stringCodec] using
    ((C7_write_records_position stringCodec DataFileWriter.init 0 []
      [(7, [1, 2]), (5, []), (9, [3])]).2.2.2 1 (by decide)).1

/-- Claim C8: `read_to_memory` on a file whose size fits a `uint64_t` succeeds
whatever the table held before, leaves the file as it is, and makes the table
a rearrangement of the entries of the file, sorted in non-decreasing
lexicographic `(id, value)` order; the table is empty for an empty file. -/
theorem C8_read_to_memory_sorted_perm {V : Type} [LinearOrder V] (m : file_map_t V)
    (hsize : sizeof_element_t * m.m_file.length < 2 ^ 64) :
    ∃ r, m.read_to_memory = some r ∧ r.m_file = m.m_file ∧
      r.m_memory.Perm m.m_file ∧
      r.m_memory.Pairwise (fun a b => a.1 < b.1 ∨ (a.1 = b.1 ∧ a.2 ≤ b.2)) ∧
      (m.m_file = [] → r.m_memory = []) := by
  refine ⟨_, read_to_memory_eq m hsize, rfl, sort_perm m.m_file, ?_, ?_⟩
  · exact List.Pairwise.imp (fun {a b} h => (element_less_eq_false_iff a b).mp h)
      (sort_sorted m.m_file)
  · intro h0
    show sort m.m_file = []
    rw [h0]
    rfl

/-- A file of three entries, loaded over a table that held another entry. -/
theorem C8_read_to_memory_sorted_perm_witness :
    ∃ r, file_map_t.read_to_memory
          ({ m_memory := [(9, 9)], m_file := [(5, 10), (5, 3), (7, 1)] } : file_map_t Nat)
        = some r ∧ r.m_file = [(5, 10), (5, 3), (7, 1)] ∧
      r.m_memory.Perm [(5, 10), (5, 3), (7, 1)] ∧
      r.m_memory.Pairwise (fun a b => a.1 < b.1 ∨ (a.1 = b.1 ∧ a.2 ≤ b.2)) ∧
      (([(5, 10), (5, 3), (7, 1)] : List (element_t Nat)) = [] → r.m_memory = []) :=
  C8_read_to_memory_sorted_perm
    ({ m_memory := [(9, 9)], m_file := [(5, 10), (5, 3), (7, 1)] } : file_map_t Nat)
    (by decide)

/-- Claim C9: after any writes on a fresh `file_map_t` and one `flush_to_file`
the file holds exactly the written entries in the order of the writes, and the
buffer is empty. -/
theorem C9_file_in_write_order {V : Type} (ws : List (element_t V)) :
    ((file_map_t.init []).writes ws).flush_to_file = { m_memory := [], m_file := ws } := by
  rw [writes_flush]
  simp [file_map_t.init]

/-- Claim C10: `flush_to_file` twice in a row leaves the file and the buffer as
one call does, and on an empty buffer it changes neither. -/
theorem C10_flush_idempotent {V : Type} (m : file_map_t V) (file : List (element_t V)) :
    m.flush_to_file.flush_to_file = m.flush_to_file ∧
    file_map_t.flush_to_file { m_memory := [], m_file := file }
      = { m_memory := [], m_file := file } := by
  constructor
  · rw [flush_to_file_eq m]
    rfl
  · rfl

/-- Claim C11: `write` first moves the buffer to the end of the file exactly
when the buffer holds more than 1024 entries before the call, and then puts
`(id, value)` at the end of the buffer; so after every write of any sequence
of writes that starts on an empty buffer the buffer holds at most 1025
entries, a number that 1025 writes reach. -/
theorem C11_write_flush_threshold {V : Type} (m : file_map_t V) (k : Nat) (v : V)
    (file ws : List (element_t V)) (n : Nat) :
    (m.write k v =
      if m.m_memory.length > 1024 then
        { m_memory := [(k, v)], m_file := m.m_file ++ m.m_memory }
      else { m_memory := m.m_memory ++ [(k, v)], m_file := m.m_file }) ∧
    (file_map_t.writes { m_memory := [], m_file := file } (ws.take n)).m_memory.length ≤ 1025 ∧
    (file_map_t.writes { m_memory := [], m_file := file }
      (List.replicate 1025 (k, v))).m_memory.length = 1025 := by
  have hlen : (List.replicate 1025 (k, v)).length = 1025 := List.length_replicate _ _
  refine ⟨write_eq m k v, writes_memory_le _ _ (Nat.zero_le _), ?_⟩
  rw [writes_no_flush _ _ (by show 0 + _ ≤ s_max_count + 1; rw [hlen]; decide)]
  exact hlen

/-- Claim C12: on a sorted table `for_each_ret` walks the values of
`GetRange id`, which are the values of the entries of that id in ascending
order, and calls the visitor on a prefix of them: on all of them when no call
returns `true`, and otherwise up to and including the first call that returns
`true`.  The record of the calls does not change what the visitor does. -/
theorem C12_for_each_ret_stops {V : Type} [LinearOrder V] {S : Type} (m : file_map_t V)
    (hs : TableSorted m.m_memory) (k : Nat) (toDo : S → V → S × Bool) (s : S) :
    (m.rangeElements (m.GetRange k)).map Prod.snd
      = (m.m_memory.filter (fun e => decide (e.1 = k))).map Prod.snd ∧
    ((m.rangeElements (m.GetRange k)).map Prod.snd).Pairwise (fun a b => a ≤ b) ∧
    (m.for_each_ret k (file_map_t.recordCalls toDo) (s, [])).1 = m.for_each_ret k toDo s ∧
    (((∀ i v, ((m.rangeElements (m.GetRange k)).map Prod.snd)[i]? = some v →
          (toDo ((((m.rangeElements (m.GetRange k)).map Prod.snd).take i).foldl
            (fun s v => (toDo s v).1) s) v).2 = false) ∧
        (m.for_each_ret k (file_map_t.recordCalls toDo) (s, [])).2
          = (m.rangeElements (m.GetRange k)).map Prod.snd) ∨
      (∃ i v, ((m.rangeElements (m.GetRange k)).map Prod.snd)[i]? = some v ∧
        (toDo ((((m.rangeElements (m.GetRange k)).map Prod.snd).take i).foldl
          (fun s v => (toDo s v).1) s) v).2 = true ∧
        (∀ j w, j < i → ((m.rangeElements (m.GetRange k)).map Prod.snd)[j]? = some w →
          (toDo ((((m.rangeElements (m.GetRange k)).map Prod.snd).take j).foldl
            (fun s v => (toDo s v).1) s) w).2 = false) ∧
        (m.for_each_ret k (file_map_t.recordCalls toDo) (s, [])).2
          = ((m.rangeElements (m.GetRange k)).map Prod.snd).take (i + 1))) := by
  have hrange : m.rangeElements (m.GetRange k)
      = m.m_memory.filter (fun e => decide (e.1 = k)) :=
    range_eq_filter hs k
  obtain ⟨h1, h2⟩ := for_each_loop_record toDo (m.rangeElements (m.GetRange k)) s []
  refine ⟨by rw [hrange], ?_, h1, ?_⟩
  · rw [hrange]
    exact sorted_filter_values hs k
  · simpa [file_map_t.for_each_ret] using h2

/-- A visitor that adds up the values and stops at the first value of at
least 7, on a table with three entries of the id. -/
theorem C12_for_each_ret_stops_witness :
    (file_map_t.for_each_ret
        ({ m_memory := [(2, 9), (5, 3), (5, 7), (5, 10), (7, 1)], m_file := [] } : file_map_t Nat)
        5 (file_map_t.recordCalls (fun s v => (s + v, decide (7 ≤ v)))) (0, [])).1
      = file_map_t.for_each_ret
        ({ m_memory := [(2, 9), (5, 3), (5, 7), (5, 10), (7, 1)], m_file := [] } : file_map_t Nat)
        5 (fun s v => (s + v, decide (7 ≤ v))) 0 :=
  (C12_for_each_ret_stops
    ({ m_memory := [(2, 9), (5, 3), (5, 7), (5, 10), (7, 1)], m_file := [] } : file_map_t Nat)
    (by unfold TableSorted; decide) 5 (fun s v => (s + v, decide (7 ≤ v))) 0).2.2.1

/-- Claim C13: `Read` returns the flag of `read_one` on the offset table; on a
hit the record is decoded from the bytes that start at the offset found and
the cursor moves behind it; on a miss `Read` returns `false` and leaves the
record and the reader, the cursor included, as they were. -/
theorem C13_read_hit_miss {T : Type} (c : Codec T) (r : DataFileReader) (id : Nat) (t : T)
    (v0 : Nat) :
    (DataFileReader.Read c r id t).1 = (r.m_offsets.read_one id v0).1 ∧
    (∀ pos, r.m_offsets.read_one id v0 = (true, pos) →
      DataFileReader.Read c r id t
        = (true, (c.get (r.m_stream.drop pos)).1,
            { r with m_pos := pos + (c.get (r.m_stream.drop pos)).2 })) ∧
    ((r.m_offsets.read_one id v0).1 = false → DataFileReader.Read c r id t = (false, t, r)) := by
  refine ⟨?_, ?_, ?_⟩
  · cases hf : (r.m_offsets.read_one id v0).1 with
    | false =>
      have := read_one_miss r.m_offsets id v0 hf 0
      simp [DataFileReader.Read, this]
    | true =>
      have := read_one_hit r.m_offsets id v0 (r.m_offsets.read_one id v0).2
        (Prod.ext hf rfl) 0
      simp [DataFileReader.Read, this]
  · intro pos h
    have := read_one_hit r.m_offsets id v0 pos h 0
    simp [DataFileReader.Read, this]
  · intro h
    have := read_one_miss r.m_offsets id v0 h 0
    simp [DataFileReader.Read, this]

/-- A hit on the second of two records and the record it decodes. -/
theorem C13_read_hit_miss_witness :
    DataFileReader.Read stringCodec
        { m_stream := [2, 1, 2, 1, 3], m_pos := 0,
          m_offsets := { m_memory := [(5, 3), (7, 0)], m_file := [(7, 0), (5, 3)] } } 5 []
      = (true, [3],
          { m_stream := [2, 1, 2, 1, 3], m_pos := 5,
            m_offsets := { m_memory := [(5, 3), (7, 0)], m_file := [(7, 0), (5, 3)] } }) :=
  (C13_read_hit_miss stringCodec
    { m_stream := [2, 1, 2, 1, 3], m_pos := 0,
      m_offsets := { m_memory := [(5, 3), (7, 0)], m_file := [(7, 0), (5, 3)] } } 5 [] 0).2.1 3
    (by decide)

/-- Claim C14: after a non-empty sequence of `Write` calls on a fresh writer
and no `SaveOffsets`, the entry of the last write is the last entry of the
buffer, the offset file holds only the recorded entries that precede the
buffer, fewer than were written, and holds no entry equal to the last one when
no record is empty; a fresh reader that loads the file finds no id outside the
file, so none that was written in the buffered tail only. -/
theorem C14_unsaved_tail_lost {T : Type} (c : Codec T) (ws : List (Nat × T)) (hne : ws ≠ [])
    (hsize : sizeof_element_t * ws.length < 2 ^ 64) :
    (DataFileWriter.init.Writes c ws).m_offsets.m_file
        ++ (DataFileWriter.init.Writes c ws).m_offsets.m_memory
      = DataFileWriter.recordOffsets c 0 ws ∧
    (DataFileWriter.init.Writes c ws).m_offsets.m_memory.getLast?
      = some ((ws.getLast hne).1, ((ws.dropLast).map (fun x => (c.put x.2).length)).sum) ∧
    (DataFileWriter.init.Writes c ws).m_offsets.m_file.length < ws.length ∧
    ((∀ x ∈ ws, 0 < (c.put x.2).length) →
      ((ws.getLast hne).1, ((ws.dropLast).map (fun x => (c.put x.2).length)).sum)
        ∉ (DataFileWriter.init.Writes c ws).m_offsets.m_file) ∧
    ∃ r, (DataFileReader.init (DataFileWriter.init.Writes c ws).m_stream
            (DataFileWriter.init.Writes c ws).m_offsets.m_file).LoadOffsets = some r ∧
      ∀ id, id ∉ (DataFileWriter.init.Writes c ws).m_offsets.m_file.map Prod.fst →
        ∀ (pos : Nat) (t0 : T),
          DataFileReader.Read c { r with m_pos := pos } id t0
            = (false, t0, { r with m_pos := pos }) := by
  have hoff : (DataFileWriter.init.Writes c ws).m_offsets
      = (file_map_t.init []).writes (DataFileWriter.recordOffsets c 0 ws) :=
    Writes_offsets_eq c ws DataFileWriter.init
  have hcont : (DataFileWriter.init.Writes c ws).m_offsets.m_file
      ++ (DataFileWriter.init.Writes c ws).m_offsets.m_memory
      = DataFileWriter.recordOffsets c 0 ws := by
    rw [hoff, writes_contents]
    simp [file_map_t.init]
  have hlast : (DataFileWriter.init.Writes c ws).m_offsets.m_memory.getLast?
      = some ((ws.getLast hne).1, ((ws.dropLast).map (fun x => (c.put x.2).length)).sum) := by
    rw [hoff, writes_last _ _ (recordOffsets_ne_nil c ws 0 hne), recordOffsets_last c ws 0 hne,
      Nat.zero_add]
  obtain ⟨tail, htail⟩ := List.getLast?_eq_some_iff.mp hlast
  have hlen : (DataFileWriter.init.Writes c ws).m_offsets.m_file.length < ws.length := by
    have h := congrArg List.length hcont
    rw [List.length_append, recordOffsets_length, htail, List.length_append] at h
    simp only [List.length_singleton] at h
    omega
  refine ⟨hcont, hlast, hlen, ?_, ?_⟩
  · intro hpos hmem
    have hstrict := recordOffsets_strict c ws 0 hpos
    rw [← hcont, htail, List.pairwise_append] at hstrict
    have := hstrict.2.2 _ hmem _ (List.mem_append_right tail (List.mem_singleton.mpr rfl))
    exact absurd this (lt_irrefl _)
  · have hsz : sizeof_element_t * (DataFileWriter.init.Writes c ws).m_offsets.m_file.length
        < 2 ^ 64 :=
      lt_of_le_of_lt (Nat.mul_le_mul_left _ (le_of_lt hlen)) hsize
    have hload := read_to_memory_eq
      (file_map_t.init (DataFileWriter.init.Writes c ws).m_offsets.m_file) hsz
    refine ⟨{ m_stream := (DataFileWriter.init.Writes c ws).m_stream, m_pos := 0,
              m_offsets :=
                { m_memory := sort (DataFileWriter.init.Writes c ws).m_offsets.m_file,
                  m_file := (DataFileWriter.init.Writes c ws).m_offsets.m_file } }, ?_, ?_⟩
    · simp only [DataFileReader.LoadOffsets, DataFileReader.init, hload]
      rfl
    · intro id hid pos t0
      have := read_one_sort_missing (DataFileWriter.init.Writes c ws).m_offsets.m_file
        (DataFileWriter.init.Writes c ws).m_offsets.m_file id 0 hid
      simp [DataFileReader.Read, this]

/-- Two records written and not saved: the offset file holds fewer than two
entries. -/
theorem C14_unsaved_tail_lost_witness :
    (DataFileWriter.init.Writes stringCodec [(7, [1, 2]), (5, [])]).m_offsets.m_file.length
      < [(7, [1, 2]), ((5, []) : Nat × List Byte)].length :=
  (C14_unsaved_tail_lost stringCodec [(7, [1, 2]), (5, [])] (by decide) (by decide)).2.2.1

/-- Claim C15: `operator<` of `MappedWay` compares the packed words, and on
way ids below `2 ^ 62` it is the lexicographic order of the way id and the
numeric tag of the kind. -/
theorem C15_mapped_way_order (a b : Nat) (s t : WayType) (ha : a < 2 ^ 62) (hb : b < 2 ^ 62) :
    ∃ x y, MappedWay.make a s = some x ∧ MappedWay.make b t = some y ∧
      x.less y = decide (x.m_id < y.m_id) ∧
      (x.less y = true ↔ a < b ∨ (a = b ∧ s.code < t.code)) ∧
      (x < y ↔ x.less y = true) := by
  refine ⟨_, _, make_eq a s ha, make_eq b t hb, rfl, ?_, ?_⟩
  · have hs := s.code_lt
    have ht := t.code_lt
    simp only [MappedWay.less, decide_eq_true_eq]
    omega
  · simp only [MappedWay.less, decide_eq_true_eq]
    exact Iff.rfl

/-- Two ways of one id that differ in the kind. -/
theorem C15_mapped_way_order_witness :
    ∃ x y, MappedWay.make 9 WayType.empty_direct = some x ∧
      MappedWay.make 9 WayType.coast_opposite = some y ∧
      x.less y = decide (x.m_id < y.m_id) ∧
      (x.less y = true ↔ 9 < 9 ∨ (9 = 9 ∧ WayType.empty_direct.code < WayType.coast_opposite.code)) ∧
      (x < y ↔ x.less y = true) :=
  C15_mapped_way_order 9 9 WayType.empty_direct WayType.coast_opposite (by decide) (by decide)

/-- Claim C16: on a table sorted by `(id, value)`, `read_one` returns the value
of the first entry of the id, which is the least value of all entries of that
id; it returns `false` exactly when no entry has the id, and then leaves the
output value as it was. -/
theorem C16_read_one_first_least {V : Type} [LinearOrder V] (m : file_map_t V)
    (hs : TableSorted m.m_memory) (k : Nat) (v0 : V) :
    (∀ e, m.m_memory.find? (fun e => decide (e.1 = k)) = some e →
      m.read_one k v0 = (true, e.2) ∧ e.1 = k ∧ ∀ x ∈ m.m_memory, x.1 = k → e.2 ≤ x.2) ∧
    ((m.read_one k v0).1 = false ↔ ∀ x ∈ m.m_memory, x.1 ≠ k) ∧
    ((∀ x ∈ m.m_memory, x.1 ≠ k) → m.read_one k v0 = (false, v0)) := by
  cases m with
  | mk l f =>
    simp only at hs
    have hread := read_one_sorted hs f k v0
    rw [head?_filter_eq_find?] at hread
    have hmiss : (∀ x ∈ l, x.1 ≠ k) → l.find? (fun e => decide (e.1 = k)) = none := by
      intro h
      rw [List.find?_eq_none]
      intro x hx
      simpa using h x hx
    refine ⟨?_, ?_, ?_⟩
    · intro e he
      rw [hread, he]
      refine ⟨rfl, by simpa using List.find?_some he, sorted_find_least hs k e he⟩
    · constructor
      · intro hflag x hx hxk
        cases hfind : l.find? (fun e => decide (e.1 = k)) with
        | some e => rw [hread, hfind] at hflag; simp at hflag
        | none =>
          rw [List.find?_eq_none] at hfind
          exact hfind x hx (by simpa using hxk)
      · intro h
        rw [hread, hmiss h]
    · intro h
      rw [hread, hmiss h]

/-- A sorted table with three entries of one id. -/
theorem C16_read_one_first_least_witness :
    file_map_t.read_one
        ({ m_memory := [(2, 9), (5, 3), (5, 7), (5, 10), (7, 1)], m_file := [] } : file_map_t Nat)
        5 0 = (true, 3) :=
  ((C16_read_one_first_least
    ({ m_memory := [(2, 9), (5, 3), (5, 7), (5, 10), (7, 1)], m_file := [] } : file_map_t Nat)
    (by unfold TableSorted; decide) 5 0).1 (5, 3) (by decide)).1

/-- Claim C17: the offsets a writer records never decrease in the order of the
writes and increase strictly when no record is empty; so after `SaveOffsets`
and a reload the range of an id lists the entries of that id in the order of
their writes, `Read` of an id decodes the bytes that start with the record
written first under it, which is that record when the record type decodes what
it encoded, and `Read` of an id never written reports a miss. -/
theorem C17_offsets_in_write_order {T : Type} (c : Codec T) (ws : List (Nat × T))
    (hsize : sizeof_element_t * ws.length < 2 ^ 64) :
    (DataFileWriter.init.Writes c ws).SaveOffsets.m_offsets.m_file
      = DataFileWriter.recordOffsets c 0 ws ∧
    ((DataFileWriter.init.Writes c ws).SaveOffsets.m_offsets.m_file.map Prod.snd).Pairwise
      (fun p q => p ≤ q) ∧
    ((∀ x ∈ ws, 0 < (c.put x.2).length) →
      ((DataFileWriter.init.Writes c ws).SaveOffsets.m_offsets.m_file.map Prod.snd).Pairwise
        (fun p q => p < q)) ∧
    ∃ r, (DataFileReader.init (DataFileWriter.init.Writes c ws).SaveOffsets.m_stream
            (DataFileWriter.init.Writes c ws).SaveOffsets.m_offsets.m_file).LoadOffsets = some r ∧
      (∀ id, r.m_offsets.rangeElements (r.m_offsets.GetRange id)
        = (DataFileWriter.init.Writes c ws).SaveOffsets.m_offsets.m_file.filter
            (fun e => decide (e.1 = id))) ∧
      (∀ id x, ws.find? (fun x => decide (x.1 = id)) = some x → ∀ (pos : Nat) (t0 : T),
        ∃ rest, (DataFileReader.Read c { r with m_pos := pos } id t0).1 = true ∧
          (DataFileReader.Read c { r with m_pos := pos } id t0).2.1
            = (c.get (c.put x.2 ++ rest)).1 ∧
          ((∀ t rest, (c.get (c.put t ++ rest)).1 = t) →
            (DataFileReader.Read c { r with m_pos := pos } id t0).2.1 = x.2)) ∧
      (∀ id, id ∉ ws.map Prod.fst → ∀ (pos : Nat) (t0 : T),
        (DataFileReader.Read c { r with m_pos := pos } id t0).1 = false) := by
  have hstream : (DataFileWriter.init.Writes c ws).SaveOffsets.m_stream
      = (ws.map (fun x => c.put x.2)).flatten := by
    have := Writes_stream c ws DataFileWriter.init
    simpa [DataFileWriter.SaveOffsets, DataFileWriter.init] using this
  have hfile : (DataFileWriter.init.Writes c ws).SaveOffsets.m_offsets.m_file
      = DataFileWriter.recordOffsets c 0 ws := by
    have := Writes_offsets c ws DataFileWriter.init
    simp only [DataFileWriter.SaveOffsets, flush_to_file_file]
    simpa [DataFileWriter.init, file_map_t.init] using this
  rw [hstream, hfile]
  have hmono := (recordOffsets_mono c ws 0).2
  have hload : file_map_t.read_to_memory (file_map_t.init (DataFileWriter.recordOffsets c 0 ws))
      = some { m_memory := sort (DataFileWriter.recordOffsets c 0 ws),
               m_file := DataFileWriter.recordOffsets c 0 ws } :=
    read_to_memory_eq (file_map_t.init (DataFileWriter.recordOffsets c 0 ws))
      (by simpa [file_map_t.init, recordOffsets_length] using hsize)
  refine ⟨rfl, by rw [List.pairwise_map]; exact hmono, ?_, ?_⟩
  · intro hpos
    rw [List.pairwise_map]
    exact recordOffsets_strict c ws 0 hpos
  refine ⟨{ m_stream := (ws.map (fun x => c.put x.2)).flatten, m_pos := 0,
            m_offsets := { m_memory := sort (DataFileWriter.recordOffsets c 0 ws),
                           m_file := DataFileWriter.recordOffsets c 0 ws } }, ?_, ?_, ?_, ?_⟩
  · simp only [DataFileReader.LoadOffsets, DataFileReader.init, hload]
  · intro id
    exact (range_eq_filter (sort_sorted (DataFileWriter.recordOffsets c 0 ws)) id).trans
      (sort_filter_eq id (filter_sorted_of_mono hmono id))
  · intro id x hfind pos t0
    obtain ⟨q, rest, hq, _, hdrop⟩ := recordOffsets_first c id ws 0 x hfind
    have hread := read_one_sorted (sort_sorted (DataFileWriter.recordOffsets c 0 ws))
      (DataFileWriter.recordOffsets c 0 ws) id 0
    rw [sort_filter_eq id (filter_sorted_of_mono hmono id), hq] at hread
    simp only [Nat.sub_zero] at hdrop
    refine ⟨rest, ?_, ?_, ?_⟩
    · simp [DataFileReader.Read, hread]
    · simp [DataFileReader.Read, hread, hdrop]
    · intro hcodec
      simp [DataFileReader.Read, hread, hdrop, hcodec]
  · intro id hid pos t0
    have hid2 : id ∉ (DataFileWriter.recordOffsets c 0 ws).map Prod.fst := by
      rw [recordOffsets_ids]; exact hid
    have := read_one_sort_missing (DataFileWriter.recordOffsets c 0 ws)
      (DataFileWriter.recordOffsets c 0 ws) id 0 hid2
    simp [DataFileReader.Read, this]

/-- The records `rec5` and `rec5b` written under the id 5 and `rec7` under the
id 7: the range of 5 holds the offsets 0 and 5 in this order, `Read` of 5
returns `rec5`, and `Read` of 6 reports a miss. -/
theorem C17_offsets_in_write_order_witness :
    ∃ r, (DataFileReader.init
          (DataFileWriter.init.Writes stringCodec
            [(5, [114, 101, 99, 53]), (5, [114, 101, 99, 53, 98]),
              (7, [114, 101, 99, 55])]).SaveOffsets.m_stream
          (DataFileWriter.init.Writes stringCodec
            [(5, [114, 101, 99, 53]), (5, [114, 101, 99, 53, 98]),
              (7, [114, 101, 99, 55])]).SaveOffsets.m_offsets.m_file).LoadOffsets = some r ∧
      r.m_offsets.rangeElements (r.m_offsets.GetRange 5) = [(5, 0), (5, 5)] ∧
      (DataFileReader.Read stringCodec r 5 []).2.1 = [114, 101, 99, 53] ∧
      (DataFileReader.Read stringCodec r 6 []).1 = false := by
  obtain ⟨hfile, _, _, r, hr, hrange, hfirst, hmiss⟩ :=
    C17_offsets_in_write_order stringCodec
      [(5, [114, 101, 99, 53]), (5, [114, 101, 99, 53, 98]), (7, [114, 101, 99, 55])]
      (by decide)
  obtain ⟨_, _, _, hrec⟩ := hfirst 5 (5, [114, 101, 99, 53]) (by decide) r.m_pos []
  refine ⟨r, hr, ?_, hrec stringCodec_get_put, hmiss 6 (by decide) r.m_pos []⟩
  rw [hrange 5, hfile]
  decide

/-- Claim C18: two files whose entries are rearrangements of each other load
into the same table, whatever the tables held before, so `read_one` and
`GetRange` answer alike for every id. -/
theorem C18_file_order_irrelevant {V : Type} [LinearOrder V]
    (f1 f2 mem1 mem2 : List (element_t V)) (hperm : f1.Perm f2)
    (hsize : sizeof_element_t * f1.length < 2 ^ 64) :
    ∃ r1 r2, file_map_t.read_to_memory { m_memory := mem1, m_file := f1 } = some r1 ∧
      file_map_t.read_to_memory { m_memory := mem2, m_file := f2 } = some r2 ∧
      r1.m_memory = r2.m_memory ∧
      ∀ id v0, r1.read_one id v0 = r2.read_one id v0 ∧ r1.GetRange id = r2.GetRange id ∧
        r1.rangeElements (r1.GetRange id) = r2.rangeElements (r2.GetRange id) := by
  have hsize2 : sizeof_element_t * f2.length < 2 ^ 64 := by
    rw [← hperm.length_eq]; exact hsize
  have hsort : sort f1 = sort f2 :=
    sort_unique f2 (sort f1) ((sort_perm f1).trans hperm) (sort_sorted f1)
  refine ⟨_, _, read_to_memory_eq { m_memory := mem1, m_file := f1 } hsize,
    read_to_memory_eq { m_memory := mem2, m_file := f2 } hsize2, hsort, ?_⟩
  intro id v0
  simp only [file_map_t.read_one, file_map_t.GetRange, file_map_t.rangeElements, hsort]
  exact ⟨trivial, trivial, trivial⟩

/-- Two files with the same three entries in different orders. -/
theorem C18_file_order_irrelevant_witness :
    ∃ r1 r2, file_map_t.read_to_memory
        ({ m_memory := [], m_file := [(5, 10), (5, 3), (7, 1)] } : file_map_t Nat) = some r1 ∧
      file_map_t.read_to_memory
        ({ m_memory := [(9, 9)], m_file := [(7, 1), (5, 10), (5, 3)] } : file_map_t Nat)
        = some r2 ∧
      r1.m_memory = r2.m_memory ∧
      ∀ id v0, r1.read_one id v0 = r2.read_one id v0 ∧ r1.GetRange id = r2.GetRange id ∧
        r1.rangeElements (r1.GetRange id) = r2.rangeElements (r2.GetRange id) :=
  C18_file_order_irrelevant [(5, 10), (5, 3), (7, 1)] [(7, 1), (5, 10), (5, 3)] [] [(9, 9)]
    (by decide) (by decide)

/-- Claim C19, refuted as stated: on a fresh table the write of `(5, 10)` alone
makes `read_one 5` return `true` with the value 10 and `GetRange 5` hold the
entry, since the buffer is the vector that is searched. -/
theorem C19_buffer_visible_counterexample :
    file_map_t.read_one ((file_map_t.init ([] : List (element_t Nat))).write 5 10) 5 0
      = (true, 10) ∧
    file_map_t.rangeElements ((file_map_t.init ([] : List (element_t Nat))).write 5 10)
        (file_map_t.GetRange ((file_map_t.init ([] : List (element_t Nat))).write 5 10) 5)
      = [(5, 10)] := by
  decide

/-- Claim C19, amended: on a table with an empty vector, `write` alone leaves
the entry in the vector that `read_one` and `GetRange` search, so `read_one`
of the id returns `true` with the value and the range of the id holds exactly
that entry; after `flush_to_file` has moved the entry to the file, `read_one`
of the id reports a miss and the range of the id is empty. -/
theorem C19_buffer_visible_amended {V : Type} (file : List (element_t V)) (k : Nat)
    (v v0 : V) :
    file_map_t.write { m_memory := [], m_file := file } k v
      = { m_memory := [(k, v)], m_file := file } ∧
    (file_map_t.write { m_memory := [], m_file := file } k v).read_one k v0 = (true, v) ∧
    (file_map_t.write { m_memory := [], m_file := file } k v).rangeElements
        ((file_map_t.write { m_memory := [], m_file := file } k v).GetRange k) = [(k, v)] ∧
    (file_map_t.write { m_memory := [], m_file := file } k v).flush_to_file
      = { m_memory := [], m_file := file ++ [(k, v)] } ∧
    (file_map_t.write { m_memory := [], m_file := file } k v).flush_to_file.read_one k v0
      = (false, v0) ∧
    (file_map_t.write { m_memory := [], m_file := file } k v).flush_to_file.rangeElements
        ((file_map_t.write { m_memory := [], m_file := file } k v).flush_to_file.GetRange k)
      = [] := by
  have hw : file_map_t.write { m_memory := [], m_file := file } k v
      = { m_memory := [(k, v)], m_file := file } := by
    rw [write_eq]; simp
  rw [hw, flush_to_file_eq]
  refine ⟨rfl, ?_, ?_, rfl, ?_, ?_⟩
  · simp [file_map_t.read_one, lower_bound, bound_loop, element_less_key]
  · simp [file_map_t.rangeElements, file_map_t.GetRange, equal_range, lower_bound,
      upper_bound, bound_loop, element_less_key, key_less_element]
  · simp [file_map_t.read_one, lower_bound, bound_loop]
  · simp [file_map_t.rangeElements]

/-- Claim C20: `element_less_t` on two entries is the strict lexicographic
order of id and value: irreflexive, transitive, and for two distinct entries
exactly one is less than the other; the overloads with a bare id compare the
id of the entry alone, and a list sorted by the entry order is the entries
with a smaller id, then those of the id, then those with a larger id. -/
theorem C20_element_less_lexicographic {V : Type} [LinearOrder V] (a b c : element_t V)
    (k : Nat) (l : List (element_t V)) :
    (element_less a b = true ↔ a.1 < b.1 ∨ (a.1 = b.1 ∧ a.2 < b.2)) ∧
    element_less a a = false ∧
    (element_less a b = true → element_less b c = true → element_less a c = true) ∧
    (a ≠ b → (element_less a b = true ∧ element_less b a = false) ∨
      (element_less a b = false ∧ element_less b a = true)) ∧
    element_less_key a k = decide (a.1 < k) ∧
    key_less_element k a = decide (k < a.1) ∧
    (TableSorted l →
      l = l.filter (fun e => element_less_key e k)
          ++ l.filter (fun e => !element_less_key e k && !key_less_element k e)
          ++ l.filter (fun e => key_less_element k e) ∧
      (∀ e ∈ l.filter (fun e => element_less_key e k), e.1 < k) ∧
      (∀ e ∈ l.filter (fun e => !element_less_key e k && !key_less_element k e), e.1 = k) ∧
      (∀ e ∈ l.filter (fun e => key_less_element k e), k < e.1)) := by
  refine ⟨element_less_iff a b, ?_, ?_, ?_, rfl, rfl, ?_⟩
  · simp [element_less]
  · simp only [element_less_iff]
    rintro (h1 | ⟨h1, h1v⟩) (h2 | ⟨h2, h2v⟩)
    · exact Or.inl (lt_trans h1 h2)
    · exact Or.inl (h2 ▸ h1)
    · exact Or.inl (h1 ▸ h2)
    · exact Or.inr ⟨h1.trans h2, lt_trans h1v h2v⟩
  · intro hne
    have hab := element_less_iff a b
    have hba := element_less_iff b a
    have hnab := element_less_eq_false_iff b a
    have hnba := element_less_eq_false_iff a b
    rcases lt_trichotomy a.1 b.1 with h | h | h
    · exact Or.inl ⟨hab.mpr (Or.inl h), hnba.mpr (Or.inl h)⟩
    · rcases lt_trichotomy a.2 b.2 with hv | hv | hv
      · exact Or.inl ⟨hab.mpr (Or.inr ⟨h, hv⟩), hnba.mpr (Or.inr ⟨h, le_of_lt hv⟩)⟩
      · exact absurd (Prod.ext h hv) hne
      · exact Or.inr ⟨hnab.mpr (Or.inr ⟨h.symm, le_of_lt hv⟩), hba.mpr (Or.inr ⟨h.symm, hv⟩)⟩
    · exact Or.inr ⟨hnab.mpr (Or.inl h), hba.mpr (Or.inl h)⟩
  · intro hs
    refine ⟨sorted_partition hs k, ?_, ?_, ?_⟩
    · intro e he
      simpa [element_less_key] using (List.mem_filter.mp he).2
    · intro e he
      have := (List.mem_filter.mp he).2
      simp only [element_less_key, key_less_element, Bool.and_eq_true, Bool.not_eq_true',
        decide_eq_false_iff_not] at this
      omega
    · intro e he
      simpa [key_less_element] using (List.mem_filter.mp he).2

/-- Three entries in ascending order: the first is less than the third. -/
theorem C20_element_less_lexicographic_witness :
    element_less ((1, 2) : element_t Nat) (2, 0) = true :=
  (C20_element_less_lexicographic ((1, 2) : element_t Nat) (1, 3) (2, 0) 1
    [(1, 2), (1, 3), (2, 0)]).2.2.1 (by decide) (by decide)

end cache

/-! ## The properties of the editor -/

namespace osm

/-- Claim C21: `GetFeatureStatus` returns `Untouched` for a feature without an
entry in the feature map, so for every feature when the map is empty; after
`DeleteFeature` it returns `Deleted` and after `EditFeature` it returns
`Modified` for the id of the feature, and for every other map file and index
it returns what it returned before. -/
theorem C21_feature_status (e : Editor) (fresh : FeatureTypeInfo) (now : Int)
    (f : FeatureType) (street : String) (mwmId index : Nat) :
    ((map_find e.m_features mwmId).bind (fun inner => map_find inner index) = none →
      e.GetFeatureStatus mwmId index = FeatureStatus.Untouched) ∧
    Editor.GetFeatureStatus { m_features := [] } mwmId index = FeatureStatus.Untouched ∧
    (e.DeleteFeature fresh now f).GetFeatureStatus f.m_id.m_mwmId f.m_id.m_index
      = FeatureStatus.Deleted ∧
    (e.EditFeature fresh now f street).GetFeatureStatus f.m_id.m_mwmId f.m_id.m_index
      = FeatureStatus.Modified ∧
    (¬ (mwmId = f.m_id.m_mwmId ∧ index = f.m_id.m_index) →
      (e.DeleteFeature fresh now f).GetFeatureStatus mwmId index
        = e.GetFeatureStatus mwmId index ∧
      (e.EditFeature fresh now f street).GetFeatureStatus mwmId index
        = e.GetFeatureStatus mwmId index) := by
  refine ⟨?_, rfl, ?_, ?_, ?_⟩
  · intro h
    rw [GetFeatureStatus_eq, h]
  · unfold Editor.DeleteFeature
    exact setEntry_status_same _ _ _
  · unfold Editor.EditFeature
    simp only
    rw [setEntry_status_same]
    cases street.isEmpty <;> rfl
  · intro hne
    exact ⟨setEntry_status_other _ _ _ _ _ hne, setEntry_status_other _ _ _ _ _ hne⟩

/-- The deletion of the feature 4 of the map file 3 leaves the status of the
modified feature 2 of the map file 1 as it was. -/
theorem C21_feature_status_witness :
    (Editor.DeleteFeature
        { m_features := [(1, [(2, ⟨FeatureStatus.Modified, ⟨⟨1, 2⟩, [5]⟩, "", 10, -1, "", ""⟩)])] }
        ⟨FeatureStatus.Untouched, ⟨⟨0, 0⟩, []⟩, "", -1, -1, "", ""⟩ 20
        ⟨⟨3, 4⟩, [6]⟩).GetFeatureStatus 1 2
      = Editor.GetFeatureStatus
        { m_features := [(1, [(2, ⟨FeatureStatus.Modified, ⟨⟨1, 2⟩, [5]⟩, "", 10, -1, "", ""⟩)])] }
        1 2 :=
  ((C21_feature_status
    { m_features := [(1, [(2, ⟨FeatureStatus.Modified, ⟨⟨1, 2⟩, [5]⟩, "", 10, -1, "", ""⟩)])] }
    ⟨FeatureStatus.Untouched, ⟨⟨0, 0⟩, []⟩, "", -1, -1, "", ""⟩ 20 ⟨⟨3, 4⟩, [6]⟩ "" 1 2).2.2.2.2
    (by decide)).1

/-- Claim C22: one upload pass keeps the map files and the feature indices in
their places, and for every feature: if its upload status is neither empty nor
"Needs Retry", or its edit status is not `Modified`, the upload status, the
upload time and the upload error are what they were; and if the upload status
has changed, it is "Uploaded", "Deleted from OSM by someone" or "Needs Retry",
whatever the collaborators answer.  The same holds for the entry that a map
file and an index select before and after the pass. -/
theorem C22_upload_pass_frame {W : Type} (env : UploadEnv W) (w : W) (e : Editor) :
    List.Forall₂
      (fun a b => a.1 = b.1 ∧ List.Forall₂
        (fun x y => x.1 = y.1 ∧
          (((x.2.m_uploadStatus ≠ "" ∧ x.2.m_uploadStatus ≠ kNeedsRetry) →
            y.2.m_uploadStatus = x.2.m_uploadStatus ∧
            y.2.m_uploadAttemptTimestamp = x.2.m_uploadAttemptTimestamp ∧
            y.2.m_uploadError = x.2.m_uploadError) ∧
          (x.2.m_status ≠ FeatureStatus.Modified →
            y.2.m_uploadStatus = x.2.m_uploadStatus ∧
            y.2.m_uploadAttemptTimestamp = x.2.m_uploadAttemptTimestamp ∧
            y.2.m_uploadError = x.2.m_uploadError) ∧
          (y.2.m_uploadStatus ≠ x.2.m_uploadStatus →
            y.2.m_uploadStatus = kUploaded ∨ y.2.m_uploadStatus = kDeletedFromOSMServer ∨
            y.2.m_uploadStatus = kNeedsRetry)))
        a.2 b.2)
      e.m_features (e.UploadChanges env w).1.m_features ∧
    ∀ mwmId index x,
      (map_find e.m_features mwmId).bind (fun inner => map_find inner index) = some x →
      ∃ y, (map_find (e.UploadChanges env w).1.m_features mwmId).bind
          (fun inner => map_find inner index) = some y ∧
        ((x.m_uploadStatus ≠ "" ∧ x.m_uploadStatus ≠ kNeedsRetry) →
          y.m_uploadStatus = x.m_uploadStatus ∧
          y.m_uploadAttemptTimestamp = x.m_uploadAttemptTimestamp ∧
          y.m_uploadError = x.m_uploadError) ∧
        (x.m_status ≠ FeatureStatus.Modified →
          y.m_uploadStatus = x.m_uploadStatus ∧
          y.m_uploadAttemptTimestamp = x.m_uploadAttemptTimestamp ∧
          y.m_uploadError = x.m_uploadError) ∧
        (y.m_uploadStatus ≠ x.m_uploadStatus →
          y.m_uploadStatus = kUploaded ∨ y.m_uploadStatus = kDeletedFromOSMServer ∨
          y.m_uploadStatus = kNeedsRetry) := by
  have hR : ∀ (w : W) (fti : FeatureTypeInfo),
      ((fti.m_uploadStatus ≠ "" ∧ fti.m_uploadStatus ≠ kNeedsRetry) →
        (Editor.uploadFeature env w fti).1.m_uploadStatus = fti.m_uploadStatus ∧
        (Editor.uploadFeature env w fti).1.m_uploadAttemptTimestamp
          = fti.m_uploadAttemptTimestamp ∧
        (Editor.uploadFeature env w fti).1.m_uploadError = fti.m_uploadError) ∧
      (fti.m_status ≠ FeatureStatus.Modified →
        (Editor.uploadFeature env w fti).1.m_uploadStatus = fti.m_uploadStatus ∧
        (Editor.uploadFeature env w fti).1.m_uploadAttemptTimestamp
          = fti.m_uploadAttemptTimestamp ∧
        (Editor.uploadFeature env w fti).1.m_uploadError = fti.m_uploadError) ∧
      ((Editor.uploadFeature env w fti).1.m_uploadStatus ≠ fti.m_uploadStatus →
        (Editor.uploadFeature env w fti).1.m_uploadStatus = kUploaded ∨
        (Editor.uploadFeature env w fti).1.m_uploadStatus = kDeletedFromOSMServer ∨
        (Editor.uploadFeature env w fti).1.m_uploadStatus = kNeedsRetry) := by
    intro w fti
    obtain ⟨_, _, _, _, h5, h6, h7⟩ := uploadFeature_frame env w fti
    refine ⟨?_, ?_, h7⟩
    · intro h; rw [h5 h]; exact ⟨rfl, rfl, rfl⟩
    · intro h; rw [h6 h]; exact ⟨rfl, rfl, rfl⟩
  have hall := uploadMwms_forall2 env
    (fun x y =>
      ((x.m_uploadStatus ≠ "" ∧ x.m_uploadStatus ≠ kNeedsRetry) →
        y.m_uploadStatus = x.m_uploadStatus ∧
        y.m_uploadAttemptTimestamp = x.m_uploadAttemptTimestamp ∧
        y.m_uploadError = x.m_uploadError) ∧
      (x.m_status ≠ FeatureStatus.Modified →
        y.m_uploadStatus = x.m_uploadStatus ∧
        y.m_uploadAttemptTimestamp = x.m_uploadAttemptTimestamp ∧
        y.m_uploadError = x.m_uploadError) ∧
      (y.m_uploadStatus ≠ x.m_uploadStatus →
        y.m_uploadStatus = kUploaded ∨ y.m_uploadStatus = kDeletedFromOSMServer ∨
        y.m_uploadStatus = kNeedsRetry))
    hR e.m_features w
  refine ⟨hall, ?_⟩
  intro mwmId index x hx
  exact UploadChanges_find env w e
    (fun x y =>
      ((x.m_uploadStatus ≠ "" ∧ x.m_uploadStatus ≠ kNeedsRetry) →
        y.m_uploadStatus = x.m_uploadStatus ∧
        y.m_uploadAttemptTimestamp = x.m_uploadAttemptTimestamp ∧
        y.m_uploadError = x.m_uploadError) ∧
      (x.m_status ≠ FeatureStatus.Modified →
        y.m_uploadStatus = x.m_uploadStatus ∧
        y.m_uploadAttemptTimestamp = x.m_uploadAttemptTimestamp ∧
        y.m_uploadError = x.m_uploadError) ∧
      (y.m_uploadStatus ≠ x.m_uploadStatus →
        y.m_uploadStatus = kUploaded ∨ y.m_uploadStatus = kDeletedFromOSMServer ∨
        y.m_uploadStatus = kNeedsRetry))
    hR mwmId index x hx

/-- A pass whose server accepts every node, over a feature that was uploaded
before: its upload status stays "Uploaded". -/
theorem C22_upload_pass_frame_witness :
    ∃ y, (map_find
        (Editor.UploadChanges (W := Unit) ⟨fun _ => true, fun _ _ => (UploadOutcome.uploaded 30, ())⟩ ()
          { m_features :=
              [(1, [(2, ⟨FeatureStatus.Modified, ⟨⟨1, 2⟩, [5]⟩, "", 10, 15, "Uploaded", ""⟩),
                    (3, ⟨FeatureStatus.Modified, ⟨⟨1, 3⟩, [5]⟩, "", 12, -1, "", ""⟩)])] }).1.m_features
        1).bind (fun inner => map_find inner 2) = some y ∧
      y.m_uploadStatus = "Uploaded" := by
  obtain ⟨y, hy, h1, _⟩ :=
    (C22_upload_pass_frame (W := Unit) ⟨fun _ => true, fun _ _ => (UploadOutcome.uploaded 30, ())⟩ ()
      { m_features :=
          [(1, [(2, ⟨FeatureStatus.Modified, ⟨⟨1, 2⟩, [5]⟩, "", 10, 15, "Uploaded", ""⟩),
                (3, ⟨FeatureStatus.Modified, ⟨⟨1, 3⟩, [5]⟩, "", 12, -1, "", ""⟩)])] }).2 1 2
      ⟨FeatureStatus.Modified, ⟨⟨1, 2⟩, [5]⟩, "", 10, 15, "Uploaded", ""⟩ (by decide)
  exact ⟨y, hy, (h1 (by decide)).1⟩

/-- Claim C23: whatever numeric values the enumerators have, as long as they
are distinct, `EditableMetadataForType` returns a list in strictly ascending
order of these values, without duplicates, whose elements are exactly the
fields of the descriptions of the types of the feature that have one, and the
five address fields when such a description has `address` set; the list is
empty when no type of the feature has a description. -/
theorem C23_editable_metadata (code : EType → Nat) (hinj : Function.Injective code)
    (readableName : Nat → String) (feature : FeatureType) :
    (EditableMetadataForType code readableName feature).Pairwise
      (fun a b => code a < code b) ∧
    (EditableMetadataForType code readableName feature).Nodup ∧
    (∀ z, z ∈ EditableMetadataForType code readableName feature ↔
      ∃ t ∈ feature.m_types, ∃ d, GetTypeDescription readableName t = some d ∧
        (z ∈ d.fields ∨ (d.address = true ∧
          z ∈ [EType.FMD_EMAIL, EType.FMD_OPEN_HOURS, EType.FMD_PHONE_NUMBER,
            EType.FMD_POSTCODE, EType.FMD_WEBSITE]))) ∧
    ((∀ t ∈ feature.m_types, GetTypeDescription readableName t = none) →
      EditableMetadataForType code readableName feature = []) := by
  have hsorted : (EditableMetadataForType code readableName feature).Pairwise
      (fun a b => code a < code b) :=
    foldl_addEditableFields_sorted code readableName feature.m_types [] List.Pairwise.nil
  have hmem : ∀ z, z ∈ EditableMetadataForType code readableName feature ↔
      ∃ t ∈ feature.m_types, ∃ d, GetTypeDescription readableName t = some d ∧
        (z ∈ d.fields ∨ (d.address = true ∧
          z ∈ [EType.FMD_EMAIL, EType.FMD_OPEN_HOURS, EType.FMD_PHONE_NUMBER,
            EType.FMD_POSTCODE, EType.FMD_WEBSITE])) := by
    intro z
    unfold EditableMetadataForType
    rw [foldl_addEditableFields_mem code hinj]
    simp
  refine ⟨hsorted, ?_, hmem, ?_⟩
  · refine List.Pairwise.imp ?_ hsorted
    intro a b hab heq
    rw [heq] at hab
    exact absurd hab (lt_irrefl _)
  · intro hnone
    rw [List.eq_nil_iff_forall_not_mem]
    intro z hz
    obtain ⟨t, ht, d, hd, _⟩ := (hmem z).mp hz
    rw [hnone t ht] at hd
    exact absurd hd (by simp)

/-- A cash machine that is also a bank, with a third type that has no
description. -/
theorem C23_editable_metadata_witness :
    (EditableMetadataForType EType.toCtorIdx
        (fun t => if t = 1 then "amenity-atm" else if t = 2 then "amenity-bank" else "")
        ⟨⟨0, 0⟩, [1, 3, 2]⟩).Pairwise
      (fun a b => EType.toCtorIdx a < EType.toCtorIdx b) :=
  (C23_editable_metadata EType.toCtorIdx toCtorIdx_injective
    (fun t => if t = 1 then "amenity-atm" else if t = 2 then "amenity-bank" else "")
    ⟨⟨0, 0⟩, [1, 3, 2]⟩).1

end osm
